import Mathlib

/-!
Verification development for the `suffix_array` crate.

Byte strings and `u32` vectors are embedded as `List Nat`.  Each definition
below is a shallow embedding of the correspondingly named Rust item; the doc
comment names the source location.
-/

set_option maxHeartbeats 1000000
set_option maxRecDepth 100000

namespace SufArr

/-- Three-way lexicographic comparison of byte slices; embeds Rust's
`Ord for [u8]` (element-wise comparison, ties broken by length). -/
def listCmp : List Nat → List Nat → Ordering
  | [], [] => .eq
  | [], _ :: _ => .lt
  | _ :: _, [] => .gt
  | a :: as_, b :: bs =>
    if a < b then .lt else if b < a then .gt else listCmp as_ bs

/-- Embeds `utils::common_prefix` (aka the crate's `lcp` helper): length of
the longest common prefix of two byte strings. -/
def lcp : List Nat → List Nat → Nat
  | a :: as_, b :: bs => if a = b then lcp as_ bs + 1 else 0
  | _, _ => 0

theorem listCmp_eq_iff : ∀ x y : List Nat, listCmp x y = .eq ↔ x = y := by
  intro x
  induction x with
  | nil => intro y; cases y <;> simp [listCmp]
  | cons a as_ ih =>
    intro y
    cases y with
    | nil => simp [listCmp]
    | cons b bs =>
      simp only [listCmp]
      rcases Nat.lt_trichotomy a b with h | h | h
      · simp [h, Nat.ne_of_lt h]
      · subst h; simp [Nat.lt_irrefl, ih]
      · simp [h, Nat.lt_asymm h, (Nat.ne_of_lt h).symm]

theorem listCmp_self (x : List Nat) : listCmp x x = .eq :=
  (listCmp_eq_iff x x).mpr rfl

theorem listCmp_lt_iff_gt : ∀ x y : List Nat,
    listCmp x y = .lt ↔ listCmp y x = .gt := by
  intro x
  induction x with
  | nil => intro y; cases y <;> simp [listCmp]
  | cons a as_ ih =>
    intro y
    cases y with
    | nil => simp [listCmp]
    | cons b bs =>
      simp only [listCmp]
      rcases Nat.lt_trichotomy a b with h | h | h
      · simp [h, Nat.lt_asymm h]
      · subst h; simp [Nat.lt_irrefl, ih]
      · simp [h, Nat.lt_asymm h]

/-- Non-strict comparison: `x` is at most `y` in byte-slice order. -/
def cmpLe (x y : List Nat) : Prop := listCmp x y ≠ .gt

theorem cmpLe_of_lt {x y : List Nat} (h : listCmp x y = .lt) : cmpLe x y := by
  intro hc; rw [h] at hc; cases hc

theorem cmpLe_refl (x : List Nat) : cmpLe x x := by
  intro h; rw [listCmp_self] at h; cases h

theorem cmpLe_nil (x : List Nat) : cmpLe [] x := by
  cases x <;> intro h <;> simp [listCmp] at h

/-- Transitivity package for `listCmp`: weak transitivity together with
strictness propagation from either side. -/
theorem listCmp_trans : ∀ x y z : List Nat, listCmp x y ≠ .gt →
    listCmp y z ≠ .gt →
    (listCmp x z ≠ .gt ∧
      ((listCmp x y = .lt ∨ listCmp y z = .lt) → listCmp x z = .lt)) := by
  intro x
  induction x with
  | nil =>
    intro y z hxy hyz
    refine ⟨cmpLe_nil z, ?_⟩
    intro hor
    cases z with
    | nil =>
      exfalso
      rcases hor with h | h
      · cases y with
        | nil => simp [listCmp] at h
        | cons b bs => simp [listCmp] at hyz
      · cases y <;> simp [listCmp] at h hyz
    | cons c cs => simp [listCmp]
  | cons a as_ ih =>
    intro y z hxy hyz
    cases y with
    | nil => exact (hxy (by simp [listCmp])).elim
    | cons b bs =>
      cases z with
      | nil => exact (hyz (by simp [listCmp])).elim
      | cons c cs =>
        simp only [listCmp] at hxy hyz ⊢
        rcases Nat.lt_trichotomy a b with hab | hab | hab
        · -- a < b
          have hbc : ¬ c < b := by
            intro hcb
            simp [if_neg (Nat.lt_asymm hcb), if_pos hcb] at hyz
          have hac : a < c := by
            rcases Nat.lt_or_ge a c with h | h
            · exact h
            · exact absurd (Nat.lt_of_lt_of_le hab (Nat.le_of_not_lt hbc))
                (Nat.not_lt_of_ge (by omega))
          constructor
          · simp [hac]
          · intro _; simp [hac]
        · -- a = b
          subst hab
          simp only [Nat.lt_irrefl, if_false] at hxy
          rcases Nat.lt_trichotomy a c with hac | hac | hac
          · constructor
            · simp [hac]
            · intro _; simp [hac]
          · subst hac
            simp only [Nat.lt_irrefl, if_false] at hyz ⊢
            obtain ⟨h1, h2⟩ := ih bs cs hxy hyz
            exact ⟨h1, h2⟩
          · exfalso
            simp [if_neg (Nat.lt_asymm hac), if_pos hac] at hyz
        · -- b < a
          exfalso
          simp [if_neg (Nat.lt_asymm hab), if_pos hab] at hxy

theorem cmpLe_trans {x y z : List Nat} (h1 : cmpLe x y) (h2 : cmpLe y z) :
    cmpLe x z := (listCmp_trans x y z h1 h2).1

theorem listCmp_lt_of_lt_of_le {x y z : List Nat} (h1 : listCmp x y = .lt)
    (h2 : cmpLe y z) : listCmp x z = .lt :=
  (listCmp_trans x y z (cmpLe_of_lt h1) h2).2 (Or.inl h1)

theorem listCmp_lt_of_le_of_lt {x y z : List Nat} (h1 : cmpLe x y)
    (h2 : listCmp y z = .lt) : listCmp x z = .lt :=
  (listCmp_trans x y z h1 (cmpLe_of_lt h2)).2 (Or.inr h2)

theorem listCmp_lt_trans {x y z : List Nat} (h1 : listCmp x y = .lt)
    (h2 : listCmp y z = .lt) : listCmp x z = .lt :=
  listCmp_lt_of_lt_of_le h1 (cmpLe_of_lt h2)

theorem cmpLe_cases {x y : List Nat} (h : cmpLe x y) :
    listCmp x y = .lt ∨ x = y := by
  rcases hc : listCmp x y with _ | _ | _
  · exact Or.inl rfl
  · exact Or.inr ((listCmp_eq_iff x y).mp hc)
  · exact absurd hc h

/-- Truncating to a common length preserves weak order. -/
theorem cmpLe_take {x y : List Nat} (h : cmpLe x y) (L : Nat) :
    cmpLe (x.take L) (y.take L) := by
  induction x generalizing y L with
  | nil => simpa using cmpLe_nil (y.take L)
  | cons a as_ ih =>
    cases y with
    | nil => exact (h (by simp [listCmp])).elim
    | cons b bs =>
      cases L with
      | zero => simp [cmpLe, listCmp]
      | succ L =>
        simp only [List.take_succ_cons]
        simp only [cmpLe, listCmp] at h ⊢
        rcases Nat.lt_trichotomy a b with hab | hab | hab
        · simp [hab]
        · subst hab
          simp only [Nat.lt_irrefl, if_false] at h ⊢
          exact ih h L
        · simp [if_neg (Nat.lt_asymm hab), if_pos hab] at h

theorem lcp_comm : ∀ x y : List Nat, lcp x y = lcp y x := by
  intro x
  induction x with
  | nil => intro y; cases y <;> simp [lcp]
  | cons a as_ ih =>
    intro y
    cases y with
    | nil => simp [lcp]
    | cons b bs =>
      by_cases h : a = b
      · subst h; simp [lcp, ih]
      · simp [lcp, h, Ne.symm h]

theorem lcp_le_left : ∀ x y : List Nat, lcp x y ≤ x.length := by
  intro x
  induction x with
  | nil => intro y; cases y <;> simp [lcp]
  | cons a as_ ih =>
    intro y
    cases y with
    | nil => simp [lcp]
    | cons b bs =>
      by_cases h : a = b
      · simp only [lcp, if_pos h, List.length_cons]
        exact Nat.succ_le_succ (ih bs)
      · simp [lcp, h]

theorem lcp_self (x : List Nat) : lcp x x = x.length := by
  induction x with
  | nil => simp [lcp]
  | cons a as_ ih => simp [lcp, ih]

/-- The first `lcp x y` elements of `y` agree with those of `x`. -/
theorem lcp_take : ∀ x y : List Nat, y.take (lcp x y) = x.take (lcp x y) := by
  intro x
  induction x with
  | nil => intro y; cases y <;> simp [lcp]
  | cons a as_ ih =>
    intro y
    cases y with
    | nil => simp [lcp]
    | cons b bs =>
      by_cases h : a = b
      · subst h; simp [lcp, ih]
      · simp [lcp, h]

/-- If `p` is a (take-)prefix of `z`, the common prefix of `p` and `z` is all
of `p`. -/
theorem lcp_of_take_eq : ∀ p z : List Nat, z.take p.length = p →
    lcp p z = p.length := by
  intro p
  induction p with
  | nil => intro z _; cases z <;> simp [lcp]
  | cons a p' ih =>
    intro z hz
    cases z with
    | nil => simp at hz
    | cons c z' =>
      simp only [List.length_cons, List.take_succ_cons, List.cons.injEq] at hz
      obtain ⟨h1, h2⟩ := hz
      subst h1
      simp [lcp, ih z' h2]

/-- A take-prefix is weakly below the original string. -/
theorem cmpLe_of_take_eq : ∀ p z : List Nat, z.take p.length = p →
    cmpLe p z := by
  intro p
  induction p with
  | nil => intro z _; exact cmpLe_nil z
  | cons a p' ih =>
    intro z hz
    cases z with
    | nil => simp at hz
    | cons c z' =>
      simp only [List.length_cons, List.take_succ_cons, List.cons.injEq] at hz
      obtain ⟨h1, h2⟩ := hz
      subst h1
      have := ih z' h2
      simp only [cmpLe, listCmp, Nat.lt_irrefl, if_false]
      exact this

/-- Squeeze: anything between `p` and an extension of `p` also extends `p`. -/
theorem take_eq_of_between : ∀ p y z : List Nat, cmpLe p y → cmpLe y z →
    z.take p.length = p → y.take p.length = p := by
  intro p
  induction p with
  | nil => intro y z _ _ _; simp
  | cons a p' ih =>
    intro y z hpy hyz hz
    cases z with
    | nil => simp at hz
    | cons c z' =>
      simp only [List.length_cons, List.take_succ_cons, List.cons.injEq] at hz
      obtain ⟨h1, h2⟩ := hz
      subst h1
      cases y with
      | nil => exact (hpy (by simp [listCmp])).elim
      | cons b y' =>
        simp only [cmpLe, listCmp] at hpy hyz
        rcases Nat.lt_trichotomy c b with hab | hab | hab
        · -- c < b: y > z impossible since z starts with c
          exfalso
          simp [if_neg (Nat.lt_asymm hab), if_pos hab] at hyz
        · subst hab
          simp only [Nat.lt_irrefl, if_false] at hpy hyz
          simp only [List.length_cons, List.take_succ_cons, List.cons.injEq,
            true_and]
          exact ih y' z' hpy hyz h2
        · exfalso
          simp [if_neg (Nat.lt_asymm hab), if_pos hab] at hpy

/-- Sandwich bound: if `x ≤ y ≤ z` then `lcp x z ≤ lcp y z`. -/
theorem lcp_sandwich_left : ∀ x y z : List Nat, cmpLe x y → cmpLe y z →
    lcp x z ≤ lcp y z := by
  intro x
  induction x with
  | nil => intro y z _ _; cases z <;> simp [lcp]
  | cons a x' ih =>
    intro y z hxy hyz
    cases z with
    | nil => simp [lcp]
    | cons c z' =>
      by_cases hac : a = c
      · subst hac
        cases y with
        | nil => exact (hxy (by simp [listCmp])).elim
        | cons b y' =>
          simp only [cmpLe, listCmp] at hxy hyz
          rcases Nat.lt_trichotomy a b with hab | hab | hab
          · -- a < b and y ≤ z = a :: z' forces b = a: contradiction
            exfalso
            simp only [if_pos hab] at hxy
            rcases Nat.lt_trichotomy b a with hba | hba | hba
            · exact Nat.lt_asymm hab hba
            · exact Nat.lt_irrefl a (hba ▸ hab)
            · simp [if_neg (Nat.lt_asymm hba), if_pos hba] at hyz
          · subst hab
            simp only [Nat.lt_irrefl, if_false] at hxy hyz
            simp only [lcp, if_pos rfl]
            exact Nat.succ_le_succ (ih y' z' hxy hyz)
          · exfalso
            simp [if_neg (Nat.lt_asymm hab), if_pos hab] at hxy
      · simp [lcp, hac]

/-- Sandwich bound: if `x ≤ y ≤ z` then `lcp x z ≤ lcp x y`. -/
theorem lcp_sandwich_right : ∀ x y z : List Nat, cmpLe x y → cmpLe y z →
    lcp x z ≤ lcp x y := by
  intro x
  induction x with
  | nil => intro y z _ _; cases z <;> simp [lcp]
  | cons a x' ih =>
    intro y z hxy hyz
    cases z with
    | nil => simp [lcp]
    | cons c z' =>
      by_cases hac : a = c
      · subst hac
        cases y with
        | nil => exact (hxy (by simp [listCmp])).elim
        | cons b y' =>
          simp only [cmpLe, listCmp] at hxy hyz
          rcases Nat.lt_trichotomy a b with hab | hab | hab
          · exfalso
            rcases Nat.lt_trichotomy b a with hba | hba | hba
            · exact Nat.lt_asymm hab hba
            · exact Nat.lt_irrefl a (hba ▸ hab)
            · simp [if_neg (Nat.lt_asymm hba), if_pos hba] at hyz
          · subst hab
            simp only [Nat.lt_irrefl, if_false] at hxy hyz
            simp only [lcp, if_pos rfl]
            exact Nat.succ_le_succ (ih y' z' hxy hyz)
          · exfalso
            simp [if_neg (Nat.lt_asymm hab), if_pos hab] at hxy
      · simp [lcp, hac]

/-- `x.take L = p` exactly captures "`p` is a prefix of `x`" (when `L` is
`p.length`, a longer `p` can never equal a shorter take). -/
theorem take_eq_iff_lcp (p x : List Nat) :
    x.take p.length = p ↔ lcp p x = p.length := by
  constructor
  · exact lcp_of_take_eq p x
  · intro h
    have := lcp_take p x
    rw [h] at this
    rw [this, List.take_of_length_le (Nat.le_refl _)]

/-- Result of Rust's `binary_search_by`: `found i` is `Ok(i)`, `notFound i`
is `Err(i)` (the insertion point). -/
inductive SearchRes where
  | found : Nat → SearchRes
  | notFound : Nat → SearchRes
deriving DecidableEq

/-- Fuel-indexed embedding of the `std` slice binary-search loop
(`mid = left + size / 2`, three-way comparison).  The fuel argument only
makes the recursion structural; `right - left` steps always suffice. -/
def binSearchF (f : Nat → Ordering) : Nat → Nat → Nat → SearchRes
  | 0, left, _ => .notFound left
  | fuel + 1, left, right =>
    if left < right then
      match f (left + (right - left) / 2) with
      | .lt => binSearchF f fuel (left + (right - left) / 2 + 1) right
      | .gt => binSearchF f fuel left (left + (right - left) / 2)
      | .eq => .found (left + (right - left) / 2)
    else .notFound left

/-- Embeds `slice::binary_search_by` with comparator `f` over indices
`[left, right)`. -/
def binSearch (f : Nat → Ordering) (left right : Nat) : SearchRes :=
  binSearchF f (right - left) left right

/-- Rank of an `Ordering` for monotonicity statements. -/
def ordRank : Ordering → Nat
  | .lt => 0
  | .eq => 1
  | .gt => 2

/-- `f` is a monotone comparator on `[l, r)`. -/
def MonoCmp (f : Nat → Ordering) (l r : Nat) : Prop :=
  ∀ a b, l ≤ a → a ≤ b → b < r → ordRank (f a) ≤ ordRank (f b)

theorem eq_lt_of_ordRank_le_lt {o : Ordering} (h : ordRank o ≤ ordRank .lt) :
    o = .lt := by
  cases o <;> simp [ordRank] at h ⊢

theorem eq_gt_of_ordRank_ge_gt {o : Ordering} (h : ordRank .gt ≤ ordRank o) :
    o = .gt := by
  cases o <;> simp [ordRank] at h ⊢

theorem binSearchF_found_spec (f : Nat → Ordering) : ∀ fuel l r i,
    l ≤ r → r - l ≤ fuel → binSearchF f fuel l r = .found i →
    l ≤ i ∧ i < r ∧ f i = .eq := by
  intro fuel
  induction fuel with
  | zero => intro l r i _ _ h; simp [binSearchF] at h
  | succ fuel ih =>
    intro l r i hlr0 hle h
    simp only [binSearchF] at h
    by_cases hlr : l < r
    · rw [if_pos hlr] at h
      rcases hf : f (l + (r - l) / 2) with _ | _ | _ <;> rw [hf] at h
      · obtain ⟨h1, h2, h3⟩ := ih _ _ _ (by omega) (by omega) h
        exact ⟨by omega, h2, h3⟩
      · cases h
        exact ⟨by omega, by omega, hf⟩
      · obtain ⟨h1, h2, h3⟩ := ih _ _ _ (by omega) (by omega) h
        exact ⟨h1, by omega, h3⟩
    · rw [if_neg hlr] at h; cases h

theorem binSearchF_notFound_spec (f : Nat → Ordering) : ∀ fuel l r i,
    l ≤ r → r - l ≤ fuel → MonoCmp f l r → binSearchF f fuel l r = .notFound i →
    l ≤ i ∧ i ≤ r ∧ (∀ m, l ≤ m → m < i → f m = .lt) ∧
      (∀ m, i ≤ m → m < r → f m = .gt) := by
  intro fuel
  induction fuel with
  | zero =>
    intro l r i hlr0 hle hmono h
    simp only [binSearchF] at h
    cases h
    refine ⟨Nat.le_refl _, by omega, ?_, ?_⟩
    · intro m h1 h2; omega
    · intro m h1 h2; omega
  | succ fuel ih =>
    intro l r i hlr0 hle hmono h
    simp only [binSearchF] at h
    by_cases hlr : l < r
    · rw [if_pos hlr] at h
      rcases hf : f (l + (r - l) / 2) with _ | _ | _ <;> rw [hf] at h
      · -- went right: everything at or below mid is lt
        have hmono' : MonoCmp f (l + (r - l) / 2 + 1) r := by
          intro a b ha hab hb
          exact hmono a b (by omega) hab hb
        obtain ⟨h1, h2, h3, h4⟩ := ih _ _ _ (by omega) (by omega) hmono' h
        refine ⟨by omega, h2, ?_, h4⟩
        intro m hm1 hm2
        by_cases hmid : m ≤ l + (r - l) / 2
        · exact eq_lt_of_ordRank_le_lt
            (hf ▸ hmono m (l + (r - l) / 2) hm1 hmid (by omega))
        · exact h3 m (by omega) hm2
      · cases h
      · -- went left: everything at or above mid is gt
        have hmono' : MonoCmp f l (l + (r - l) / 2) := by
          intro a b ha hab hb
          exact hmono a b ha hab (by omega)
        obtain ⟨h1, h2, h3, h4⟩ := ih _ _ _ (by omega) (by omega) hmono' h
        refine ⟨h1, by omega, h3, ?_⟩
        intro m hm1 hm2
        by_cases hmid : l + (r - l) / 2 ≤ m
        · exact eq_gt_of_ordRank_ge_gt
            (hf ▸ hmono (l + (r - l) / 2) m (by omega) hmid hm2)
        · exact h4 m hm1 (by omega)
    · rw [if_neg hlr] at h
      cases h
      refine ⟨Nat.le_refl _, by omega, ?_, ?_⟩
      · intro m h1 h2; omega
      · intro m h1 h2; omega

theorem binSearch_found_spec {f : Nat → Ordering} {l r i : Nat}
    (hlr : l ≤ r) (h : binSearch f l r = .found i) :
    l ≤ i ∧ i < r ∧ f i = .eq :=
  binSearchF_found_spec f (r - l) l r i hlr (Nat.le_refl _) h

theorem binSearch_notFound_spec {f : Nat → Ordering} {l r i : Nat}
    (hlr : l ≤ r) (hmono : MonoCmp f l r)
    (h : binSearch f l r = .notFound i) :
    l ≤ i ∧ i ≤ r ∧ (∀ m, l ≤ m → m < i → f m = .lt) ∧
      (∀ m, i ≤ m → m < r → f m = .gt) :=
  binSearchF_notFound_spec f (r - l) l r i hlr (Nat.le_refl _) hmono h

/-- Completeness: a monotone comparator with an `eq` point is always found. -/
theorem binSearch_found_of_eq {f : Nat → Ordering} {l r m : Nat}
    (hmono : MonoCmp f l r) (h1 : l ≤ m) (h2 : m < r) (heq : f m = .eq) :
    ∃ i, binSearch f l r = .found i := by
  rcases hres : binSearch f l r with i | i
  · exact ⟨i, rfl⟩
  · obtain ⟨_, _, h3, h4⟩ := binSearch_notFound_spec (by omega) hmono hres
    by_cases hm : m < i
    · rw [h3 m h1 hm] at heq; cases heq
    · rw [h4 m (by omega) h2] at heq; cases heq

/-- Fuel-indexed embedding of the hand-written lower-bound loop of
`SuffixArray::search_all` (`m = i + (k - i) / 2`; `p m` means "go right"). -/
def partitionPointF (p : Nat → Bool) : Nat → Nat → Nat → Nat
  | 0, i, _ => i
  | fuel + 1, i, k =>
    if i < k then
      if p (i + (k - i) / 2) then
        partitionPointF p fuel (i + (k - i) / 2 + 1) k
      else
        partitionPointF p fuel i (i + (k - i) / 2)
    else i

/-- The boundary index of a monotone predicate on `[i, k)`. -/
def partitionPoint (p : Nat → Bool) (i k : Nat) : Nat :=
  partitionPointF p (k - i) i k

/-- `p` is downward closed ("true then false") on `[l, r)`. -/
def DownClosed (p : Nat → Bool) (l r : Nat) : Prop :=
  ∀ a b, l ≤ a → a ≤ b → b < r → p b = true → p a = true

theorem partitionPointF_spec (p : Nat → Bool) : ∀ fuel l r,
    l ≤ r → r - l ≤ fuel → DownClosed p l r →
    l ≤ partitionPointF p fuel l r ∧ partitionPointF p fuel l r ≤ r ∧
      (∀ m, l ≤ m → m < partitionPointF p fuel l r → p m = true) ∧
      (∀ m, partitionPointF p fuel l r ≤ m → m < r → p m = false) := by
  intro fuel
  induction fuel with
  | zero =>
    intro l r hlr0 hle hdc
    simp only [partitionPointF]
    refine ⟨Nat.le_refl _, by omega, ?_, ?_⟩
    · intro m h1 h2; omega
    · intro m h1 h2; omega
  | succ fuel ih =>
    intro l r hlr0 hle hdc
    simp only [partitionPointF]
    by_cases hlr : l < r
    · rw [if_pos hlr]
      by_cases hp : p (l + (r - l) / 2) = true
      · rw [if_pos hp]
        have hdc' : DownClosed p (l + (r - l) / 2 + 1) r := by
          intro a b ha hab hb
          exact hdc a b (by omega) hab hb
        obtain ⟨h1, h2, h3, h4⟩ := ih _ _ (by omega) (by omega) hdc'
        refine ⟨by omega, h2, ?_, h4⟩
        intro m hm1 hm2
        by_cases hmid : m ≤ l + (r - l) / 2
        · exact hdc m (l + (r - l) / 2) hm1 hmid (by omega) hp
        · exact h3 m (by omega) hm2
      · rw [if_neg hp]
        have hdc' : DownClosed p l (l + (r - l) / 2) := by
          intro a b ha hab hb
          exact hdc a b ha hab (by omega)
        obtain ⟨h1, h2, h3, h4⟩ := ih _ _ (by omega) (by omega) hdc'
        refine ⟨h1, by omega, h3, ?_⟩
        intro m hm1 hm2
        by_cases hmid : l + (r - l) / 2 ≤ m
        · rcases hpm : p m with _ | _
          · rfl
          · exact absurd (hdc _ m (by omega) hmid hm2 hpm)
              (by simp [hp])
        · exact h4 m hm1 (by omega)
    · rw [if_neg hlr]
      refine ⟨Nat.le_refl _, by omega, ?_, ?_⟩
      · intro m h1 h2; omega
      · intro m h1 h2; omega

theorem partitionPoint_spec {p : Nat → Bool} {l r : Nat} (hlr : l ≤ r)
    (hdc : DownClosed p l r) :
    l ≤ partitionPoint p l r ∧ partitionPoint p l r ≤ r ∧
      (∀ m, l ≤ m → m < partitionPoint p l r → p m = true) ∧
      (∀ m, partitionPoint p l r ≤ m → m < r → p m = false) :=
  partitionPointF_spec p (r - l) l r hlr (Nat.le_refl _) hdc

/-- Boundaries of a monotone predicate are unique. -/
theorem boundary_unique {P : Nat → Prop} {L a b : Nat} (ha : a ≤ L)
    (hb : b ≤ L) (hA : ∀ m, m < L → (m < a ↔ P m))
    (hB : ∀ m, m < L → (m < b ↔ P m)) : a = b := by
  by_contra hne
  rcases Nat.lt_or_ge a b with h | h
  · have h1 : a < L := by omega
    have h2 : P a := (hB a h1).mp h
    have h3 : ¬ a < a := Nat.lt_irrefl a
    exact h3 ((hA a h1).mpr h2)
  · have h' : b < a := by omega
    have h1 : b < L := by omega
    have h2 : P b := (hA b h1).mp h'
    have h3 : ¬ b < b := Nat.lt_irrefl b
    exact h3 ((hB b h1).mpr h2)

/-- The suffix of `s` recorded at position `m` of the suffix array
(`&s[sa[m] as usize..]`). -/
def suffixAt (s sa : List Nat) (m : Nat) : List Nat := s.drop (sa.getD m 0)

/-- Consecutive entries of `l` index strictly increasing suffixes of `s`. -/
def chainLtB (s : List Nat) : List Nat → Bool
  | a :: b :: rest =>
    decide (listCmp (s.drop a) (s.drop b) = .lt) && chainLtB s (b :: rest)
  | _ => true

/-- `sa` is a valid suffix array for `s`: right length, in-range entries and
strictly increasing suffixes (the invariant guaranteed by construction and
checked by `check_integrity`). -/
def sortedSA (s sa : List Nat) : Bool :=
  (sa.length == s.length + 1) && sa.all (fun x => decide (x ≤ s.length)) &&
    chainLtB s sa

theorem sortedSA_length {s sa : List Nat} (h : sortedSA s sa = true) :
    sa.length = s.length + 1 := by
  simp only [sortedSA, Bool.and_eq_true, beq_iff_eq] at h
  exact h.1.1

theorem sortedSA_mem_le {s sa : List Nat} (h : sortedSA s sa = true) :
    ∀ x ∈ sa, x ≤ s.length := by
  simp only [sortedSA, Bool.and_eq_true, List.all_eq_true,
    decide_eq_true_eq] at h
  exact h.1.2

theorem sortedSA_getD_le {s sa : List Nat} (h : sortedSA s sa = true)
    {m : Nat} (hm : m < sa.length) : sa.getD m 0 ≤ s.length := by
  apply sortedSA_mem_le h
  rw [List.getD_eq_getElem _ _ hm]
  exact List.getElem_mem _

theorem chainLtB_pair {s : List Nat} : ∀ {l : List Nat},
    chainLtB s l = true → ∀ m, m + 1 < l.length →
    listCmp (s.drop (l.getD m 0)) (s.drop (l.getD (m + 1) 0)) = .lt := by
  intro l
  induction l with
  | nil => intro _ m hm; simp at hm
  | cons a rest ih =>
    intro h m hm
    cases rest with
    | nil => simp at hm
    | cons b rest' =>
      simp only [chainLtB, Bool.and_eq_true, decide_eq_true_eq] at h
      cases m with
      | zero => simpa using h.1
      | succ m =>
        have := ih h.2 m (by simpa using Nat.lt_of_succ_lt_succ hm)
        simpa using this

theorem sortedSA_pair_lt {s sa : List Nat} (h : sortedSA s sa = true)
    {m : Nat} (hm : m + 1 < sa.length) :
    listCmp (suffixAt s sa m) (suffixAt s sa (m + 1)) = .lt := by
  simp only [sortedSA, Bool.and_eq_true] at h
  exact chainLtB_pair h.2 m hm

theorem sortedSA_lt_of_lt {s sa : List Nat} (h : sortedSA s sa = true)
    {m m' : Nat} (hmm : m < m') (hm' : m' < sa.length) :
    listCmp (suffixAt s sa m) (suffixAt s sa m') = .lt := by
  induction m' with
  | zero => omega
  | succ k ih =>
    rcases Nat.lt_or_ge m k with h1 | h1
    · exact listCmp_lt_trans (ih h1 (by omega)) (sortedSA_pair_lt h hm')
    · have : m = k := by omega
      subst this
      exact sortedSA_pair_lt h hm'

theorem sortedSA_le_of_le {s sa : List Nat} (h : sortedSA s sa = true)
    {m m' : Nat} (hmm : m ≤ m') (hm' : m' < sa.length) :
    cmpLe (suffixAt s sa m) (suffixAt s sa m') := by
  rcases Nat.lt_or_ge m m' with h1 | h1
  · exact cmpLe_of_lt (sortedSA_lt_of_lt h h1 hm')
  · have : m = m' := by omega
    subst this
    exact cmpLe_refl _

theorem drop_inj_of_le {s : List Nat} {v w : Nat} (hv : v ≤ s.length)
    (hw : w ≤ s.length) (h : s.drop v = s.drop w) : v = w := by
  have := congrArg List.length h
  simp only [List.length_drop] at this
  omega

theorem sortedSA_getD_inj {s sa : List Nat} (h : sortedSA s sa = true)
    {m m' : Nat} (hm : m < sa.length) (hm' : m' < sa.length)
    (heq : sa.getD m 0 = sa.getD m' 0) : m = m' := by
  by_contra hne
  rcases Nat.lt_or_ge m m' with h1 | h1
  · have := sortedSA_lt_of_lt h h1 hm'
    rw [show suffixAt s sa m = suffixAt s sa m' by
      unfold suffixAt; rw [heq]] at this
    rw [listCmp_self] at this
    cases this
  · have h2 : m' < m := by omega
    have := sortedSA_lt_of_lt h h2 hm
    rw [show suffixAt s sa m' = suffixAt s sa m by
      unfold suffixAt; rw [heq]] at this
    rw [listCmp_self] at this
    cases this

theorem sortedSA_nodup {s sa : List Nat} (h : sortedSA s sa = true) :
    sa.Nodup := by
  rw [List.nodup_iff_injective_get]
  intro ⟨m, hm⟩ ⟨m', hm'⟩ heq
  simp only [List.get_eq_getElem] at heq
  have heq' : sa.getD m 0 = sa.getD m' 0 := by
    rw [List.getD_eq_getElem _ _ hm, List.getD_eq_getElem _ _ hm', heq]
  have := sortedSA_getD_inj h hm hm' heq'
  exact Fin.ext this

/-- A valid suffix array is a permutation of `{0, …, n}`. -/
theorem sortedSA_perm {s sa : List Nat} (h : sortedSA s sa = true) :
    List.Perm sa (List.range (s.length + 1)) := by
  have hsub : sa ⊆ List.range (s.length + 1) := by
    intro x hx
    rw [List.mem_range]
    exact Nat.lt_succ_of_le (sortedSA_mem_le h x hx)
  have hsp := (sortedSA_nodup h).subperm hsub
  have hlen : (List.range (s.length + 1)).length ≤ sa.length := by
    rw [List.length_range, sortedSA_length h]
  exact hsp.perm_of_length_le hlen

/-- Every value `v ≤ n` appears at some position of a valid suffix array. -/
theorem sortedSA_surj {s sa : List Nat} (h : sortedSA s sa = true)
    {v : Nat} (hv : v ≤ s.length) :
    ∃ m, m < sa.length ∧ sa.getD m 0 = v := by
  have hmem : v ∈ sa :=
    (sortedSA_perm h).mem_iff.mpr (List.mem_range.mpr (Nat.lt_succ_of_le hv))
  obtain ⟨⟨m, hm⟩, hget⟩ := List.mem_iff_get.mp hmem
  refine ⟨m, hm, ?_⟩
  rw [List.getD_eq_getElem _ _ hm]
  simpa using hget

theorem listCmp_nil_right_ne_lt (x : List Nat) : listCmp x [] ≠ .lt := by
  cases x <;> simp [listCmp]

/-- The first entry of a valid suffix array is `n` (the empty suffix). -/
theorem sortedSA_head {s sa : List Nat} (h : sortedSA s sa = true) :
    sa.getD 0 0 = s.length := by
  obtain ⟨m, hm, hv⟩ := sortedSA_surj h (Nat.le_refl s.length)
  cases m with
  | zero => exact hv
  | succ k =>
    exfalso
    have hlt := sortedSA_lt_of_lt h (Nat.zero_lt_succ k) hm
    have : suffixAt s sa (k + 1) = [] := by
      unfold suffixAt; rw [hv, List.drop_length]
    rw [this] at hlt
    exact listCmp_nil_right_ne_lt _ hlt

/-- Embeds `utils::truncate` (`&s[..min(s.len(), max)]`). -/
def trunc (s : List Nat) (m : Nat) : List Nat := s.take m

/-- Embeds `SuffixArray::contains` (src/lib.rs): binary search of `sa` keyed
by the pattern-length truncation of each suffix. -/
def containsFn (s sa pat : List Nat) : Bool :=
  match binSearch
      (fun m => listCmp (trunc (s.drop (sa.getD m 0)) pat.length) pat)
      0 sa.length with
  | .found _ => true
  | .notFound _ => false

theorem ordRank_le_two (o : Ordering) : ordRank o ≤ 2 := by
  cases o <;> simp [ordRank]

theorem ordRank_le_one_iff (o : Ordering) : ordRank o ≤ 1 ↔ o ≠ .gt := by
  cases o <;> simp [ordRank]

/-- A comparator built from weakly increasing keys is monotone. -/
theorem monoCmp_of_keys (key : Nat → List Nat) (pat : List Nat) (r : Nat)
    (hk : ∀ a b, a ≤ b → b < r → cmpLe (key a) (key b)) :
    MonoCmp (fun m => listCmp (key m) pat) 0 r := by
  intro a b _ hab hb
  show ordRank (listCmp (key a) pat) ≤ ordRank (listCmp (key b) pat)
  rcases hfb : listCmp (key b) pat with _ | _ | _
  · -- key b < pat, so key a < pat as well
    have hfa : listCmp (key a) pat = .lt :=
      listCmp_lt_of_le_of_lt (hk a b hab hb) hfb
    rw [hfa]
  · -- key b = pat, so key a ≤ pat
    have hbp : key b = pat := (listCmp_eq_iff _ _).mp hfb
    have hle : cmpLe (key a) pat := hbp ▸ hk a b hab hb
    exact (ordRank_le_one_iff _).mpr hle
  · exact ordRank_le_two _

theorem truncKeys_mono {s sa : List Nat} (h : sortedSA s sa = true)
    (L : Nat) : ∀ a b, a ≤ b → b < sa.length →
    cmpLe ((s.drop (sa.getD a 0)).take L) ((s.drop (sa.getD b 0)).take L) := by
  intro a b hab hb
  exact cmpLe_take (sortedSA_le_of_le h hab hb) L

/-- Claim C3: `contains(P)` returns `true` iff some suffix of `S` (including
the empty one) has `P` as a prefix. -/
theorem contains_iff_occurs (s sa pat : List Nat)
    (h : sortedSA s sa = true) :
    containsFn s sa pat = true ↔
      ∃ i, i ≤ s.length ∧ (s.drop i).take pat.length = pat := by
  have hmono : MonoCmp
      (fun m => listCmp (trunc (s.drop (sa.getD m 0)) pat.length) pat)
      0 sa.length :=
    monoCmp_of_keys _ pat sa.length (truncKeys_mono h pat.length)
  constructor
  · intro hc
    unfold containsFn at hc
    rcases hres : binSearch
        (fun m => listCmp (trunc (s.drop (sa.getD m 0)) pat.length) pat)
        0 sa.length with i | i
    · obtain ⟨_, hir, heq⟩ := binSearch_found_spec (Nat.zero_le _) hres
      refine ⟨sa.getD i 0, sortedSA_getD_le h hir, ?_⟩
      exact (listCmp_eq_iff _ _).mp heq
    · rw [hres] at hc; cases hc
  · rintro ⟨i, hi, hp⟩
    obtain ⟨m, hm, hv⟩ := sortedSA_surj h hi
    have heq : listCmp (trunc (s.drop (sa.getD m 0)) pat.length) pat = .eq := by
      rw [hv]
      exact (listCmp_eq_iff _ _).mpr hp
    obtain ⟨j, hj⟩ := binSearch_found_of_eq hmono (Nat.zero_le m) hm heq
    unfold containsFn
    rw [hj]

/-- Witness for C3 at `S = [1,0]`, `SA = [2,1,0]`, `P = [0]`. -/
theorem contains_iff_occurs_witness :
    sortedSA [1, 0] [2, 1, 0] = true ∧
      (containsFn [1, 0] [2, 1, 0] [0] = true ↔
        ∃ i, i ≤ ([1, 0] : List Nat).length ∧
          (([1, 0] : List Nat).drop i).take ([0] : List Nat).length = [0]) :=
  ⟨by decide, contains_iff_occurs [1, 0] [2, 1, 0] [0] (by decide)⟩

/-- First loop of `SuffixArray::search_all`: lower bound of the pattern
among the suffixes indexed by `xs` (`if sub > &s[xs[m]..] { i = m + 1 }`). -/
def lowPP (s xs pat : List Nat) : Nat :=
  partitionPoint (fun m => decide (listCmp pat (s.drop (xs.getD m 0)) = .gt))
    0 xs.length

/-- Second loop of `SuffixArray::search_all`: first position at or after `i`
whose suffix does not start with the pattern. -/
def highPP (s xs pat : List Nat) (i : Nat) : Nat :=
  partitionPoint (fun m => decide ((s.drop (xs.getD m 0)).take pat.length = pat))
    i xs.length

/-- Embeds `SuffixArray::search_all` (src/lib.rs): two binary-search loops,
result is the sub-slice `&sa[i..j]`. -/
def searchAll (s sa pat : List Nat) : List Nat :=
  (sa.drop (lowPP s sa pat)).take
    (highPP s sa pat (lowPP s sa pat) - lowPP s sa pat)

/-- Keys of `xs` are weakly increasing suffixes of `s`. -/
def KeysMono (s xs : List Nat) : Prop :=
  ∀ a b, a ≤ b → b < xs.length →
    cmpLe (s.drop (xs.getD a 0)) (s.drop (xs.getD b 0))

theorem sortedSA_keysMono {s sa : List Nat} (h : sortedSA s sa = true) :
    KeysMono s sa := fun a b hab hb => sortedSA_le_of_le h hab hb

theorem lowPP_spec {s xs pat : List Nat} (hmono : KeysMono s xs) :
    lowPP s xs pat ≤ xs.length ∧
      (∀ m, m < xs.length →
        (m < lowPP s xs pat ↔ listCmp (s.drop (xs.getD m 0)) pat = .lt)) := by
  have hdc : DownClosed
      (fun m => decide (listCmp pat (s.drop (xs.getD m 0)) = .gt))
      0 xs.length := by
    intro a b _ hab hb hpb
    rw [decide_eq_true_eq] at hpb
    rw [decide_eq_true_eq]
    have hlt : listCmp (s.drop (xs.getD b 0)) pat = .lt :=
      (listCmp_lt_iff_gt _ _).mpr hpb
    have : listCmp (s.drop (xs.getD a 0)) pat = .lt :=
      listCmp_lt_of_le_of_lt (hmono a b hab hb) hlt
    exact (listCmp_lt_iff_gt _ _).mp this
  obtain ⟨h1, h2, h3, h4⟩ := partitionPoint_spec (Nat.zero_le _) hdc
  unfold lowPP
  refine ⟨h2, ?_⟩
  intro m hm
  constructor
  · intro hlt
    have := h3 m (Nat.zero_le _) hlt
    rw [decide_eq_true_eq] at this
    exact (listCmp_lt_iff_gt _ _).mpr this
  · intro hlt
    by_contra hge
    have := h4 m (by omega) hm
    rw [decide_eq_false_iff_not] at this
    exact this ((listCmp_lt_iff_gt _ _).mp hlt)

theorem highPP_spec {s xs pat : List Nat} (hmono : KeysMono s xs)
    {i : Nat} (hi : i ≤ xs.length)
    (hge : ∀ m, i ≤ m → m < xs.length → cmpLe pat (s.drop (xs.getD m 0))) :
    i ≤ highPP s xs pat i ∧ highPP s xs pat i ≤ xs.length ∧
      (∀ m, i ≤ m → m < xs.length →
        (m < highPP s xs pat i ↔ (s.drop (xs.getD m 0)).take pat.length = pat)) := by
  have hdc : DownClosed
      (fun m => decide ((s.drop (xs.getD m 0)).take pat.length = pat))
      i xs.length := by
    intro a b ha hab hb hpb
    rw [decide_eq_true_eq] at hpb
    rw [decide_eq_true_eq]
    exact take_eq_of_between pat _ _ (hge a ha (by omega))
      (hmono a b hab hb) hpb
  obtain ⟨h1, h2, h3, h4⟩ := partitionPoint_spec hi hdc
  unfold highPP
  refine ⟨h1, h2, ?_⟩
  intro m hm1 hm2
  constructor
  · intro hlt
    have := h3 m hm1 hlt
    rwa [decide_eq_true_eq] at this
  · intro heq
    by_contra hge'
    have := h4 m (by omega) hm2
    rw [decide_eq_false_iff_not] at this
    exact this heq

/-- Membership in a contiguous sub-slice `l[i..j]`. -/
theorem mem_slice_iff {l : List Nat} {i j : Nat} (v : Nat) (hij : i ≤ j)
    (hj : j ≤ l.length) :
    v ∈ (l.drop i).take (j - i) ↔
      ∃ m, i ≤ m ∧ m < j ∧ l.getD m 0 = v := by
  have hlen : ((l.drop i).take (j - i)).length = j - i := by
    rw [List.length_take, List.length_drop]
    omega
  constructor
  · intro hv
    obtain ⟨⟨k, hk⟩, hget⟩ := List.mem_iff_get.mp hv
    rw [hlen] at hk
    refine ⟨i + k, by omega, by omega, ?_⟩
    rw [List.getD_eq_getElem _ _ (by omega)]
    simp only [List.get_eq_getElem] at hget
    rw [List.getElem_take, List.getElem_drop] at hget
    exact hget
  · rintro ⟨m, hm1, hm2, hv⟩
    have hmk : m - i < ((l.drop i).take (j - i)).length := by omega
    rw [List.mem_iff_get]
    refine ⟨⟨m - i, hmk⟩, ?_⟩
    simp only [List.get_eq_getElem]
    rw [List.getElem_take, List.getElem_drop]
    rw [List.getD_eq_getElem _ _ (by omega : m < l.length)] at hv
    simp only [Nat.add_sub_cancel' hm1]
    exact hv

/-- Claim C4: `search_all(P)` returns the contiguous slice `SA[lo..hi]`
where `lo` is the first index whose suffix is `≥ P` and `hi` the first index
`≥ lo` whose suffix does not start with `P`; as a set it is exactly
`{ i : P is a prefix of S[i..] }`. -/
theorem search_all_occurrences (s sa pat : List Nat)
    (h : sortedSA s sa = true) :
    ∃ lo hi, lo ≤ hi ∧ hi ≤ sa.length ∧
      searchAll s sa pat = (sa.drop lo).take (hi - lo) ∧
      (∀ m, m < sa.length →
        (m < lo ↔ listCmp (suffixAt s sa m) pat = .lt)) ∧
      (∀ m, lo ≤ m → m < sa.length →
        (m < hi ↔ (suffixAt s sa m).take pat.length = pat)) ∧
      (∀ v, v ∈ searchAll s sa pat ↔
        (v ≤ s.length ∧ (s.drop v).take pat.length = pat)) := by
  have hmono := sortedSA_keysMono h
  obtain ⟨hlo1, hlo2⟩ := @lowPP_spec s sa pat hmono
  have hge : ∀ m, lowPP s sa pat ≤ m → m < sa.length →
      cmpLe pat (s.drop (sa.getD m 0)) := by
    intro m hm1 hm2
    intro hgt
    have hlt : listCmp (s.drop (sa.getD m 0)) pat = .lt :=
      (listCmp_lt_iff_gt _ _).mpr hgt
    have := (hlo2 m hm2).mpr hlt
    omega
  obtain ⟨hhi1, hhi2, hhi3⟩ := highPP_spec hmono hlo1 hge
  refine ⟨lowPP s sa pat, highPP s sa pat (lowPP s sa pat), hhi1, hhi2,
    rfl, hlo2, hhi3, ?_⟩
  intro v
  rw [searchAll, mem_slice_iff v hhi1 hhi2]
  constructor
  · rintro ⟨m, hm1, hm2, hv⟩
    have hmlen : m < sa.length := by omega
    have hsw := (hhi3 m hm1 hmlen).mp hm2
    unfold suffixAt at hsw
    rw [hv] at hsw
    exact ⟨hv ▸ sortedSA_getD_le h hmlen, hsw⟩
  · rintro ⟨hv, hsw⟩
    obtain ⟨m, hm, hveq⟩ := sortedSA_surj h hv
    have hswm : (suffixAt s sa m).take pat.length = pat := by
      unfold suffixAt; rw [hveq]; exact hsw
    have hmlo : lowPP s sa pat ≤ m := by
      by_contra hlt
      have := (hlo2 m hm).mp (by omega)
      have hle : cmpLe pat (suffixAt s sa m) :=
        cmpLe_of_take_eq pat _ hswm
      exact absurd ((listCmp_lt_iff_gt _ _).mp this) hle
    have hmhi : m < highPP s sa pat (lowPP s sa pat) :=
      (hhi3 m hmlo hm).mpr hswm
    exact ⟨m, hmlo, hmhi, hveq⟩

/-- Witness for C4 at `S = [1,0]`, `SA = [2,1,0]`, `P = [0]`. -/
theorem search_all_occurrences_witness :
    sortedSA [1, 0] [2, 1, 0] = true ∧
      (∃ lo hi, lo ≤ hi ∧ hi ≤ ([2, 1, 0] : List Nat).length ∧
        searchAll [1, 0] [2, 1, 0] [0] =
          (([2, 1, 0] : List Nat).drop lo).take (hi - lo) ∧
        (∀ m, m < ([2, 1, 0] : List Nat).length →
          (m < lo ↔ listCmp (suffixAt [1, 0] [2, 1, 0] m) [0] = .lt)) ∧
        (∀ m, lo ≤ m → m < ([2, 1, 0] : List Nat).length →
          (m < hi ↔ (suffixAt [1, 0] [2, 1, 0] m).take
            ([0] : List Nat).length = [0])) ∧
        (∀ v, v ∈ searchAll [1, 0] [2, 1, 0] [0] ↔
          (v ≤ ([1, 0] : List Nat).length ∧
            (([1, 0] : List Nat).drop v).take ([0] : List Nat).length = [0]))) :=
  ⟨by decide, search_all_occurrences [1, 0] [2, 1, 0] [0] (by decide)⟩

/-- Embeds `SuffixArray::search_lcp` (src/lib.rs): binary search for the
pattern; on a hit return the whole suffix range, on a miss compare the two
neighbouring suffixes and return the longer common-prefix range. -/
def searchLcp (s sa pat : List Nat) : Nat × Nat :=
  match binSearch (fun m => listCmp (s.drop (sa.getD m 0)) pat)
      0 sa.length with
  | .found i => (sa.getD i 0, s.length)
  | .notFound i =>
    if 0 < i ∧ i < sa.length then
      if lcp pat (s.drop (sa.getD i 0)) <
          lcp pat (s.drop (sa.getD (i - 1) 0)) then
        (sa.getD (i - 1) 0,
          sa.getD (i - 1) 0 + lcp pat (s.drop (sa.getD (i - 1) 0)))
      else
        (sa.getD i 0, sa.getD i 0 + lcp pat (s.drop (sa.getD i 0)))
    else if i = sa.length then
      (sa.getD (i - 1) 0,
        sa.getD (i - 1) 0 + lcp pat (s.drop (sa.getD (i - 1) 0)))
    else (s.length, s.length)

/-- The best longest-common-prefix length of `pat` against any suffix. -/
def maxLcp (s pat : List Nat) : Nat :=
  ((List.range (s.length + 1)).map (fun i => lcp pat (s.drop i))).foldr max 0

theorem foldr_max_le {l : List Nat} {c : Nat} (h : ∀ x ∈ l, x ≤ c) :
    l.foldr max 0 ≤ c := by
  induction l with
  | nil => simp
  | cons a l ih =>
    simp only [List.foldr_cons]
    have h1 := h a (List.mem_cons_self a l)
    have h2 := ih (fun x hx => h x (List.mem_cons_of_mem a hx))
    omega

theorem le_foldr_max {l : List Nat} {x : Nat} (h : x ∈ l) :
    x ≤ l.foldr max 0 := by
  induction l with
  | nil => simp at h
  | cons a l ih =>
    simp only [List.foldr_cons]
    rcases List.mem_cons.mp h with h | h
    · omega
    · have := ih h; omega

theorem maxLcp_eq {s pat : List Nat} {c : Nat}
    (hub : ∀ i, i ≤ s.length → lcp pat (s.drop i) ≤ c)
    (hach : ∃ i, i ≤ s.length ∧ lcp pat (s.drop i) = c) :
    maxLcp s pat = c := by
  apply Nat.le_antisymm
  · apply foldr_max_le
    intro x hx
    obtain ⟨i, hi, hxeq⟩ := List.mem_map.mp hx
    rw [List.mem_range] at hi
    exact hxeq ▸ hub i (by omega)
  · obtain ⟨i, hi, hc⟩ := hach
    rw [← hc]
    apply le_foldr_max
    exact List.mem_map.mpr ⟨i, List.mem_range.mpr (by omega), rfl⟩

theorem listCmp_nil_left_ne_gt (x : List Nat) : listCmp [] x ≠ .gt := by
  cases x <;> simp [listCmp]

theorem lcp_le_right (x y : List Nat) : lcp x y ≤ y.length := by
  rw [lcp_comm]; exact lcp_le_left y x

/-- Claim C5: `search_lcp(P)` returns a range `[j, j + ℓ)` inside `S` with
`ℓ` the maximal lcp of `P` against any suffix, and `S[j..j+ℓ)` a prefix of
`P`. -/
theorem search_lcp_maximal (s sa pat : List Nat)
    (h : sortedSA s sa = true) :
    ∃ j l, searchLcp s sa pat = (j, j + l) ∧ l = maxLcp s pat ∧
      j + l ≤ s.length ∧ (s.drop j).take l = pat.take l := by
  have hmono : MonoCmp (fun m => listCmp (s.drop (sa.getD m 0)) pat)
      0 sa.length :=
    monoCmp_of_keys _ pat sa.length
      (fun a b hab hb => sortedSA_le_of_le h hab hb)
  have hlen := sortedSA_length h
  unfold searchLcp
  rcases hres : binSearch (fun m => listCmp (s.drop (sa.getD m 0)) pat)
      0 sa.length with i | i
  · -- exact hit: the suffix equals the pattern
    obtain ⟨_, hir, heq⟩ := binSearch_found_spec (Nat.zero_le _) hres
    have hsuf : s.drop (sa.getD i 0) = pat := (listCmp_eq_iff _ _).mp heq
    have hjle : sa.getD i 0 ≤ s.length := sortedSA_getD_le h hir
    have hplen : pat.length = s.length - sa.getD i 0 := by
      rw [← hsuf, List.length_drop]
    refine ⟨sa.getD i 0, s.length - sa.getD i 0, ?_, ?_, by omega, ?_⟩
    · rw [show sa.getD i 0 + (s.length - sa.getD i 0) = s.length by omega]
    · refine (maxLcp_eq ?_ ⟨sa.getD i 0, hjle, ?_⟩).symm
      · intro i' _
        calc lcp pat (s.drop i') ≤ pat.length := lcp_le_left _ _
        _ = s.length - sa.getD i 0 := hplen
      · rw [hsuf, lcp_self, hplen]
    · rw [hsuf]
  · obtain ⟨_, hile, hlo, hhi⟩ := binSearch_notFound_spec (Nat.zero_le _)
      hmono hres
    dsimp only
    by_cases hcase : 0 < i ∧ i < sa.length
    · -- interior miss: compare the two neighbouring suffixes
      obtain ⟨hi0, hilen⟩ := hcase
      have hjle : sa.getD (i - 1) 0 ≤ s.length :=
        sortedSA_getD_le h (by omega)
      have hkle : sa.getD i 0 ≤ s.length := sortedSA_getD_le h hilen
      have hltp : listCmp (s.drop (sa.getD (i - 1) 0)) pat = .lt :=
        hlo (i - 1) (Nat.zero_le _) (by omega)
      have hgtp : listCmp (s.drop (sa.getD i 0)) pat = .gt :=
        hhi i (Nat.le_refl _) hilen
      have hub : ∀ v, v ≤ s.length → lcp pat (s.drop v) ≤
          max (lcp pat (s.drop (sa.getD (i - 1) 0)))
            (lcp pat (s.drop (sa.getD i 0))) := by
        intro v hv
        obtain ⟨m, hm, hveq⟩ := sortedSA_surj h hv
        rcases Nat.lt_or_ge m i with hmi | hmi
        · -- left side: suffix(m) ≤ suffix(i-1) < pat
          have h1 : cmpLe (s.drop (sa.getD m 0))
              (s.drop (sa.getD (i - 1) 0)) :=
            sortedSA_le_of_le h (by omega) (by omega)
          have h2 : cmpLe (s.drop (sa.getD (i - 1) 0)) pat :=
            cmpLe_of_lt hltp
          have h3 := lcp_sandwich_left _ _ _ h1 h2
          rw [lcp_comm _ pat, lcp_comm _ pat] at h3
          rw [← hveq]
          omega
        · -- right side: pat < suffix(i) ≤ suffix(m)
          have h1 : cmpLe pat (s.drop (sa.getD i 0)) :=
            cmpLe_of_lt ((listCmp_lt_iff_gt _ _).mpr hgtp)
          have h2 : cmpLe (s.drop (sa.getD i 0)) (s.drop (sa.getD m 0)) :=
            sortedSA_le_of_le h hmi hm
          have h3 := lcp_sandwich_right _ _ _ h1 h2
          rw [← hveq]
          omega
      rw [if_pos ⟨hi0, hilen⟩]
      by_cases hab : lcp pat (s.drop (sa.getD i 0)) <
          lcp pat (s.drop (sa.getD (i - 1) 0))
      · rw [if_pos hab]
        refine ⟨sa.getD (i - 1) 0, lcp pat (s.drop (sa.getD (i - 1) 0)),
          rfl, ?_, ?_, ?_⟩
        · refine (maxLcp_eq ?_ ⟨sa.getD (i - 1) 0, hjle, rfl⟩).symm
          intro v hv
          have := hub v hv
          omega
        · have := lcp_le_right pat (s.drop (sa.getD (i - 1) 0))
          rw [List.length_drop] at this
          omega
        · exact lcp_take pat _
      · rw [if_neg hab]
        refine ⟨sa.getD i 0, lcp pat (s.drop (sa.getD i 0)),
          rfl, ?_, ?_, ?_⟩
        · refine (maxLcp_eq ?_ ⟨sa.getD i 0, hkle, rfl⟩).symm
          intro v hv
          have := hub v hv
          omega
        · have := lcp_le_right pat (s.drop (sa.getD i 0))
          rw [List.length_drop] at this
          omega
        · exact lcp_take pat _
    · rw [if_neg hcase]
      by_cases hend : i = sa.length
      · -- the pattern is above every suffix: take the last one
        rw [if_pos hend]
        have hlpos : 0 < sa.length := by rw [hlen]; omega
        have hi0 : 0 < i := by omega
        have hjle : sa.getD (i - 1) 0 ≤ s.length :=
          sortedSA_getD_le h (by omega)
        refine ⟨sa.getD (i - 1) 0, lcp pat (s.drop (sa.getD (i - 1) 0)),
          rfl, ?_, ?_, ?_⟩
        · refine (maxLcp_eq ?_ ⟨sa.getD (i - 1) 0, hjle, rfl⟩).symm
          intro v hv
          obtain ⟨m, hm, hveq⟩ := sortedSA_surj h hv
          have h1 : cmpLe (s.drop (sa.getD m 0))
              (s.drop (sa.getD (i - 1) 0)) :=
            sortedSA_le_of_le h (by omega) (by omega)
          have h2 : cmpLe (s.drop (sa.getD (i - 1) 0)) pat :=
            cmpLe_of_lt (hlo (i - 1) (Nat.zero_le _) (by omega))
          have h3 := lcp_sandwich_left _ _ _ h1 h2
          rw [lcp_comm _ pat, lcp_comm _ pat] at h3
          rw [← hveq]
          exact h3
        · have := lcp_le_right pat (s.drop (sa.getD (i - 1) 0))
          rw [List.length_drop] at this
          omega
        · exact lcp_take pat _
      · -- i = 0 is impossible: the empty suffix is never above the pattern
        exfalso
        have hi0 : i = 0 := by omega
        have hlpos : 0 < sa.length := by rw [hlen]; omega
        have := hhi 0 (by omega) hlpos
        rw [sortedSA_head h, List.drop_length] at this
        exact listCmp_nil_left_ne_gt pat this

/-- Witness for C5 at `S = [1,0]`, `SA = [2,1,0]`, `P = [1,1]`. -/
theorem search_lcp_maximal_witness :
    sortedSA [1, 0] [2, 1, 0] = true ∧
      (∃ j l, searchLcp [1, 0] [2, 1, 0] [1, 1] = (j, j + l) ∧
        l = maxLcp [1, 0] [1, 1] ∧ j + l ≤ ([1, 0] : List Nat).length ∧
        (([1, 0] : List Nat).drop j).take l = ([1, 1] : List Nat).take l) :=
  ⟨by decide, search_lcp_maximal [1, 0] [2, 1, 0] [1, 1] (by decide)⟩

/-- Rust slicing `&s[j..]`: defined only for `j ≤ s.len()`, otherwise the
program panics (modelled as `none`). -/
def sliceFrom (s : List Nat) (j : Nat) : Option (List Nat) :=
  if j ≤ s.length then some (s.drop j) else none

/-- The loop of `SuffixArray::check_integrity` (src/lib.rs): walk adjacent
entries, slice both suffixes (possibly panicking) and require strict
increase.  `none` models a panic, `some b` a normal return. -/
def checkPairs (s : List Nat) : List Nat → Option Bool
  | a :: b :: rest =>
    match sliceFrom s a, sliceFrom s b with
    | some x, some y =>
      if listCmp x y ≠ .lt then some false else checkPairs s (b :: rest)
    | _, _ => none
  | _ => some true

/-- Embeds `SuffixArray::check_integrity`: length check then the pair loop. -/
def checkIntegrity (s sa : List Nat) : Option Bool :=
  if s.length + 1 ≠ sa.length then some false else checkPairs s sa

/-- Embeds `SuffixArray::from_parts`: `some (some ())` is `Some(..)`,
`some none` is `None`, and the outer `none` models a panic inside the
integrity check. -/
def fromParts (s sa : List Nat) : Option (Option Unit) :=
  (checkIntegrity s sa).map (fun b => if b then some () else none)

theorem checkPairs_isSome {s : List Nat} : ∀ {l : List Nat},
    (∀ x ∈ l, x ≤ s.length) → (checkPairs s l).isSome = true := by
  intro l
  induction l with
  | nil => intro _; simp [checkPairs]
  | cons a rest ih =>
    intro hin
    cases rest with
    | nil => simp [checkPairs]
    | cons b rest' =>
      have ha : a ≤ s.length := hin a (by simp)
      have hb : b ≤ s.length := hin b (by simp)
      simp only [checkPairs, sliceFrom, if_pos ha, if_pos hb]
      by_cases hc : listCmp (s.drop a) (s.drop b) ≠ .lt
      · rw [if_pos hc]; rfl
      · rw [if_neg hc]
        exact ih (fun x hx => hin x (List.mem_cons_of_mem a hx))

theorem checkPairs_iff_chain {s : List Nat} : ∀ {l : List Nat},
    (∀ x ∈ l, x ≤ s.length) →
    (checkPairs s l = some true ↔ chainLtB s l = true) := by
  intro l
  induction l with
  | nil => intro _; simp [checkPairs, chainLtB]
  | cons a rest ih =>
    intro hin
    cases rest with
    | nil => simp [checkPairs, chainLtB]
    | cons b rest' =>
      have ha : a ≤ s.length := hin a (by simp)
      have hb : b ≤ s.length := hin b (by simp)
      simp only [checkPairs, sliceFrom, if_pos ha, if_pos hb, chainLtB,
        Bool.and_eq_true, decide_eq_true_eq]
      by_cases hc : listCmp (s.drop a) (s.drop b) = .lt
      · rw [if_neg (by simpa using hc)]
        rw [ih (fun x hx => hin x (List.mem_cons_of_mem a hx))]
        simp [hc]
      · rw [if_pos (by simpa using hc)]
        simp [hc]

/-- Claim C10 (amended): `from_parts` returns normally whenever every entry
of `SA` is in range (`≤ |S|`); with the right length but an out-of-range
entry the integrity check panics instead. -/
theorem from_parts_no_panic (s sa : List Nat)
    (hin : ∀ x ∈ sa, x ≤ s.length) : (fromParts s sa).isSome = true := by
  unfold fromParts checkIntegrity
  by_cases hlen : s.length + 1 ≠ sa.length
  · rw [if_pos hlen]; rfl
  · rw [if_neg hlen]
    rcases hcp : checkPairs s sa with _ | b
    · have := checkPairs_isSome (s := s) hin
      rw [hcp] at this
      cases this
    · rfl

/-- Counterexample to C10 as stated: with `S = [0]` and `SA = [2, 0]`
(`|SA| = |S| + 1` but an entry exceeds `|S|`), the integrity check panics
(slicing `&s[2..]` of a 1-byte string) instead of returning normally. -/
theorem from_parts_panics_on_oob : fromParts [0] [2, 0] = none := by decide

/-- Witness for the amended C10 at `S = [1,0]`, `SA = [9]` is out of range,
so use in-range `SA = [2,1,0]`. -/
theorem from_parts_no_panic_witness :
    (∀ x ∈ ([2, 1, 0] : List Nat), x ≤ ([1, 0] : List Nat).length) ∧
      (fromParts [1, 0] [2, 1, 0]).isSome = true :=
  ⟨by decide, from_parts_no_panic [1, 0] [2, 1, 0] (by decide)⟩

/-- Claim C6 (amended): when every entry of `SA` is in range, `from_parts`
returns `Some` exactly when `|SA| = |S| + 1`, `SA` is a permutation of
`{0, …, n}` and consecutive suffixes strictly increase.  (Without the range
restriction the equivalence fails: entries are never range-checked.) -/
theorem from_parts_iff_valid (s sa : List Nat)
    (hin : ∀ x ∈ sa, x ≤ s.length) :
    fromParts s sa = some (some ()) ↔
      (sa.length = s.length + 1 ∧
        List.Perm sa (List.range (s.length + 1)) ∧
        ∀ m, m + 1 < sa.length →
          listCmp (suffixAt s sa m) (suffixAt s sa (m + 1)) = .lt) := by
  constructor
  · intro hfp
    unfold fromParts checkIntegrity at hfp
    by_cases hlen : s.length + 1 ≠ sa.length
    · rw [if_pos hlen] at hfp
      simp [Option.map] at hfp
    · rw [if_neg hlen] at hfp
      have hck : checkPairs s sa = some true := by
        rcases hcp : checkPairs s sa with _ | b
        · rw [hcp] at hfp; simp [Option.map] at hfp
        · rcases b with _ | _
          · rw [hcp] at hfp; simp [Option.map] at hfp
          · rfl
      have hchain := (checkPairs_iff_chain hin).mp hck
      have hsorted : sortedSA s sa = true := by
        unfold sortedSA
        simp only [Bool.and_eq_true, beq_iff_eq, List.all_eq_true,
          decide_eq_true_eq]
        exact ⟨⟨by omega, hin⟩, hchain⟩
      exact ⟨by omega, sortedSA_perm hsorted,
        fun m hm => sortedSA_pair_lt hsorted hm⟩
  · rintro ⟨hlen, hperm, hpairs⟩
    have hchain : chainLtB s sa = true := by
      clear hperm hlen
      induction sa with
      | nil => simp [chainLtB]
      | cons a rest ih =>
        cases rest with
        | nil => simp [chainLtB]
        | cons b rest' =>
          simp only [chainLtB, Bool.and_eq_true, decide_eq_true_eq]
          refine ⟨?_, ?_⟩
          · have := hpairs 0 (by simp)
            simpa [suffixAt] using this
          · apply ih
            · intro x hx; exact hin x (List.mem_cons_of_mem a hx)
            · intro m hm
              have := hpairs (m + 1) (by simpa using Nat.succ_lt_succ hm)
              simpa [suffixAt] using this
    unfold fromParts checkIntegrity
    rw [if_neg (by omega)]
    rw [(checkPairs_iff_chain hin).mpr hchain]
    rfl

/-- Counterexample to C6 as stated: for the empty string, `SA = [1]` is not
a permutation of `{0}` (nor in range), yet `from_parts` accepts it — the
pair loop is empty and entries are never range-checked. -/
theorem from_parts_accepts_invalid :
    fromParts [] [1] = some (some ()) ∧
      ¬ List.Perm [1] (List.range 1) := by
  constructor
  · decide
  · intro hperm
    have h1 : (1 : Nat) ∈ List.range 1 := hperm.mem_iff.mp (by simp)
    simp [List.mem_range] at h1

/-- Witness for the amended C6 at `S = [1,0]`, `SA = [2,1,0]`. -/
theorem from_parts_iff_valid_witness :
    (∀ x ∈ ([2, 1, 0] : List Nat), x ≤ ([1, 0] : List Nat).length) ∧
      (fromParts [1, 0] [2, 1, 0] = some (some ()) ↔
        (([2, 1, 0] : List Nat).length = ([1, 0] : List Nat).length + 1 ∧
          List.Perm [2, 1, 0] (List.range (([1, 0] : List Nat).length + 1)) ∧
          ∀ m, m + 1 < ([2, 1, 0] : List Nat).length →
            listCmp (suffixAt [1, 0] [2, 1, 0] m)
              (suffixAt [1, 0] [2, 1, 0] (m + 1)) = .lt)) :=
  ⟨by decide, from_parts_iff_valid [1, 0] [2, 1, 0] (by decide)⟩

namespace Sacak0

/-- Embeds `construct::sacak0::MAX_LENGTH = 0xfffffffc`, the constant that
`construct/mod.rs` re-exports and `lib.rs` exposes as the crate's
`MAX_LENGTH`; it bounds the assertion in `construct::saca`. -/
def MAX_LENGTH : Nat := 0xfffffffc

end Sacak0

namespace SacaRs

/-- Embeds `saca::MAX_LENGTH = std::i32::MAX as usize`, the variant declared
in the orphaned `saca.rs` wrapper. -/
def MAX_LENGTH : Nat := 0x7fffffff

end SacaRs

/-- Counterexample to C7 as stated: the exported construction bound is not
`2^31 - 1`. -/
theorem max_length_ne_two_pow_31 : Sacak0.MAX_LENGTH ≠ 2 ^ 31 - 1 := by
  decide

/-- Claim C7 (amended): the exported `MAX_LENGTH` (lib.rs → construct →
sacak0) equals `2^32 - 4`; only the unused `saca.rs` wrapper declares
`2^31 - 1`. -/
theorem max_length_values :
    Sacak0.MAX_LENGTH = 2 ^ 32 - 4 ∧ SacaRs.MAX_LENGTH = 2 ^ 31 - 1 := by
  decide

/-- Embeds the scan of `construct::utils::for_each_lms` without the sentinel:
walk `i` from `s.len() - 2` down to `1`, tracking the S/L type `t` of
position `i` and emitting `i` when `s[i-1] > s[i]` and `i` is S-type. -/
def lmsAux (s : List Nat) : Nat → Bool → List Nat
  | 0, _ => []
  | i + 1, t =>
    if s.getD i 0 > s.getD (i + 1) 0 ∧
        (if s.getD (i + 1) 0 < s.getD (i + 2) 0 then true
         else if s.getD (i + 2) 0 < s.getD (i + 1) 0 then false else t) = true
    then
      (i + 1) :: lmsAux s i
        (if s.getD (i + 1) 0 < s.getD (i + 2) 0 then true
         else if s.getD (i + 2) 0 < s.getD (i + 1) 0 then false else t)
    else
      lmsAux s i
        (if s.getD (i + 1) 0 < s.getD (i + 2) 0 then true
         else if s.getD (i + 2) 0 < s.getD (i + 1) 0 then false else t)

/-- The LMS positions of `s` in decreasing order (`for_each_lms` with
`sentinel = false`), starting the scan at `s.len() - 2` with `t = false`. -/
def lmsPositions (s : List Nat) : List Nat := lmsAux s (s.length - 2) false

/-- The size of the sub-problem handed to the inner-level sorter: one symbol
per LMS position (the renamed string built by `rename_substrs` /
`llhsais` step 4 has exactly this many symbols). -/
def lmsSubSize (s : List Nat) : Nat := (lmsPositions s).length

theorem lmsAux_len (s : List Nat) : ∀ i t, (lmsAux s i t).length ≤ (i + 1) / 2 := by
  intro i
  induction i using Nat.strong_induction_on with
  | _ i ih =>
    intro t
    match i with
    | 0 => simp [lmsAux]
    | i' + 1 =>
      rw [lmsAux]
      by_cases hemit : s.getD i' 0 > s.getD (i' + 1) 0 ∧
          (if s.getD (i' + 1) 0 < s.getD (i' + 2) 0 then true
           else if s.getD (i' + 2) 0 < s.getD (i' + 1) 0 then false
           else t) = true
      · rw [if_pos hemit]
        match i' with
        | 0 => simp [lmsAux]
        | i'' + 1 =>
          -- the next position is L-type, hence not emitted
          have hnoemit : lmsAux s (i'' + 1)
              (if s.getD (i'' + 2) 0 < s.getD (i'' + 3) 0 then true
               else if s.getD (i'' + 3) 0 < s.getD (i'' + 2) 0 then false
               else t) = lmsAux s i''
              (if s.getD (i'' + 1) 0 < s.getD (i'' + 2) 0 then true
               else if s.getD (i'' + 2) 0 < s.getD (i'' + 1) 0 then false
               else (if s.getD (i'' + 2) 0 < s.getD (i'' + 3) 0 then true
                     else if s.getD (i'' + 3) 0 < s.getD (i'' + 2) 0 then false
                     else t)) := by
            rw [lmsAux]
            have hlc : s.getD (i'' + 2) 0 < s.getD (i'' + 1) 0 := hemit.1
            rw [if_neg]
            intro hcon
            rw [if_neg (Nat.lt_asymm hlc), if_pos hlc] at hcon
            cases hcon.2
          rw [hnoemit] at *
          have hfalse : (if s.getD (i'' + 1) 0 < s.getD (i'' + 2) 0 then true
               else if s.getD (i'' + 2) 0 < s.getD (i'' + 1) 0 then false
               else (if s.getD (i'' + 2) 0 < s.getD (i'' + 3) 0 then true
                     else if s.getD (i'' + 3) 0 < s.getD (i'' + 2) 0 then false
                     else t)) = false := by
            have hlc : s.getD (i'' + 2) 0 < s.getD (i'' + 1) 0 := hemit.1
            rw [if_neg (Nat.lt_asymm hlc), if_pos hlc]
          rw [hfalse]
          have hih := ih i'' (by omega) false
          simp only [List.length_cons]
          omega
      · rw [if_neg hemit]
        have hih := ih i' (by omega)
          (if s.getD (i' + 1) 0 < s.getD (i' + 2) 0 then true
           else if s.getD (i' + 2) 0 < s.getD (i' + 1) 0 then false else t)
        omega

theorem halving_chain : ∀ (k : Nat) (sz : Nat → Nat),
    (∀ j, j < k → 2 * sz (j + 1) ≤ sz j) → 2 ^ k * sz k ≤ sz 0 := by
  intro k
  induction k with
  | zero => intro sz _; simpa using Nat.le_refl (sz 0)
  | succ k ih =>
    intro sz hstep
    have h1 := ih (fun j => sz (j + 1)) (fun j hj => hstep (j + 1) (by omega))
    have h2 := hstep 0 (by omega)
    have h3 : 2 ^ (k + 1) * sz (k + 1) = 2 * (2 ^ k * sz (k + 1)) := by ring
    simp only at h1
    omega

/-- Claim C8: the sub-problem built after LMS naming has one symbol per LMS
position, and there are at most `⌊n/2⌋` LMS positions; consequently every
halving chain of sub-problem sizes of positive length `k` forces
`2^k ≤ n`, i.e. recursion depth is at most `log2 n`. -/
theorem lms_subproblem_half (s : List Nat) (h : 1 ≤ s.length) :
    2 * lmsSubSize s ≤ s.length ∧
      (∀ (sz : Nat → Nat) (k : Nat), 0 < sz k →
        (∀ j, j < k → 2 * sz (j + 1) ≤ sz j) → 2 ^ k ≤ sz 0) := by
  constructor
  · have hlen := lmsAux_len s (s.length - 2) false
    unfold lmsSubSize lmsPositions
    omega
  · intro sz k hk hstep
    have := halving_chain k sz hstep
    have h2 : 2 ^ k ≤ 2 ^ k * sz k := Nat.le_mul_of_pos_right _ hk
    omega

/-- Witness for C8 at `s = [1, 0, 1, 0]` (two LMS positions at most). -/
theorem lms_subproblem_half_witness :
    1 ≤ ([1, 0, 1, 0] : List Nat).length ∧
      (2 * lmsSubSize [1, 0, 1, 0] ≤ ([1, 0, 1, 0] : List Nat).length ∧
        (∀ (sz : Nat → Nat) (k : Nat), 0 < sz k →
          (∀ j, j < k → 2 * sz (j + 1) ≤ sz j) → 2 ^ k ≤ sz 0)) :=
  ⟨by decide, lms_subproblem_half [1, 0, 1, 0] (by decide)⟩

/-- Bit length of a `u32` value computed with bounded recursion: embeds
`32 - x.leading_zeros()`. -/
def bitLenAux : Nat → Nat → Nat
  | 0, _ => 0
  | fuel + 1, n => if n = 0 then 0 else bitLenAux fuel (n / 2) + 1

/-- Embeds `packed_sa::sa_bits`:
`(32 - length.saturating_sub(1).leading_zeros()) as u8`. -/
def saBits (length : Nat) : Nat := bitLenAux 32 (length - 1)

/-- Little-endian field packing of 128 values, `bits` bits each, as one
natural number.  Values are truncated to their low `bits` bits, as the bit
packer requires. -/
def packNat (bits : Nat) (vals : List Nat) : Nat :=
  vals.foldr (fun v acc => acc * 2 ^ bits + v % 2 ^ bits) 0

/-- The `len` little-endian bytes of `x`. -/
def natToBytesLE (len x : Nat) : List Nat :=
  (List.range len).map (fun i => x / 2 ^ (8 * i) % 256)

/-- Modelled from the spec: `BitPacker4x::compress` of the external
`bitpacking` crate (not part of this repository).  Contract used: a
128-value chunk is packed at width `bits` into exactly `bits * 128 / 8`
bytes, bit-packing is invertible on values below `2^bits`, and an all-zero
chunk packs to all-zero bytes. -/
def compress (bits : Nat) (chunk : List Nat) : List Nat :=
  natToBytesLE (bits * 128 / 8) (packNat bits chunk)

/-- Little-endian byte decoding (each byte reduced mod 256). -/
def bytesToNatLE (bs : List Nat) : Nat :=
  bs.foldr (fun b acc => acc * 256 + b % 256) 0

/-- Modelled from the spec: `BitPacker4x::decompress`, the inverse of
`compress`; always yields 128 values of `bits` bits each. -/
def decompress (bits : Nat) (bytes : List Nat) : List Nat :=
  (List.range 128).map (fun i => bytesToNatLE bytes / 2 ^ (bits * i) % 2 ^ bits)

/-- The trailing-zero trimming loop of `PackedSuffixArray::from_sa`
(`while tail > 0 && buf[tail - 1] == 0 { tail -= 1 }`). -/
def dropTrailingZeros (l : List Nat) : List Nat :=
  (l.reverse.dropWhile (fun b => b == 0)).reverse

/-- Embeds the struct `PackedSuffixArray { magic, length, data }`. -/
structure PackedSA where
  magic : Nat
  length : Nat
  data : List Nat
deriving DecidableEq

/-- Little endian of `"SA4x"`. -/
def MAGIC_CSA4 : Nat := 2016690515

/-- The chunking loop of `PackedSuffixArray::from_sa`: compress full
128-value chunks, then compress the zero-padded final partial chunk and
elide its trailing zero bytes.  The fuel argument only makes the recursion
structural; `sa.len() / 128 + 1` steps always suffice. -/
def fromSaDataF (bits : Nat) : Nat → List Nat → List Nat
  | 0, _ => []
  | fuel + 1, sa =>
    if 128 ≤ sa.length then
      compress bits (sa.take 128) ++ fromSaDataF bits fuel (sa.drop 128)
    else if 0 < sa.length then
      dropTrailingZeros (compress bits (sa ++ List.replicate (128 - sa.length) 0))
    else []

/-- Payload built by `PackedSuffixArray::from_sa`. -/
def fromSaData (bits : Nat) (sa : List Nat) : List Nat :=
  fromSaDataF bits (sa.length / 128 + 1) sa

/-- Embeds `PackedSuffixArray::from_sa`; `none` models the length assertion
panicking. -/
def fromSa (sa : List Nat) : Option PackedSA :=
  if sa.length ≤ 4294967295 then
    some ⟨MAGIC_CSA4, sa.length, fromSaData (saBits sa.length) sa⟩
  else none

/-- Outcome of running the decoder: a value, a panic (`abort`), or fuel
exhaustion (`spin` — the loop has not terminated within the given number of
iterations). -/
inductive RunRes where
  | ok : List Nat → RunRes
  | abort : RunRes
  | spin : RunRes
deriving DecidableEq

/-- The decoding loop of `PackedSuffixArray::into_sa`: while at least
`u8_chunk_size = bits * 128 / 8` bytes remain, split off a chunk, decompress
it, and append `n` values where `n` is `remain` for the last chunk and `128`
otherwise; afterwards decompress the zero-padded remainder.  Indexing
`buf[..n]` with `n > 128` panics (`abort`). -/
def intoSaLoop (bits : Nat) : Nat → List Nat → Nat → List Nat → RunRes
  | 0, _, _, _ => .spin
  | fuel + 1, data, remain, acc =>
    if bits * 128 / 8 ≤ data.length then
      if (if (data.drop (bits * 128 / 8)).length = 0 then remain else 128)
          ≤ 128 then
        intoSaLoop bits fuel (data.drop (bits * 128 / 8))
          (remain -
            (if (data.drop (bits * 128 / 8)).length = 0 then remain else 128))
          (acc ++ (decompress bits (data.take (bits * 128 / 8))).take
            (if (data.drop (bits * 128 / 8)).length = 0 then remain else 128))
      else .abort
    else
      if 0 < data.length then
        if remain ≤ 128 then
          .ok (acc ++ (decompress bits
            (data ++ List.replicate (bits * 128 / 8 - data.length) 0)).take
            remain)
        else .abort
      else .ok acc

/-- Embeds `PackedSuffixArray::into_sa` (the magic assertion panics on
mismatch). -/
def intoSa (fuel : Nat) (p : PackedSA) : RunRes :=
  if p.magic = MAGIC_CSA4 then
    intoSaLoop (saBits p.length) fuel p.data p.length []
  else .abort

theorem intoSaLoop_zero_bits_spin :
    ∀ fuel acc, intoSaLoop 0 fuel [] 0 acc = .spin := by
  intro fuel
  induction fuel with
  | zero => intro acc; rfl
  | succ fuel ih =>
    intro acc
    show intoSaLoop 0 fuel _ _ _ = .spin
    simp only [List.drop_nil, List.take_nil, List.length_nil]
    have h := ih (acc ++ (decompress 0 []).take 0)
    simpa using h

/-- Claim C2 is a code bug: for `SA = [0]` (the suffix array of the empty
string, `length = 1`, bit width `0`) the encoder produces an empty payload
and the decoder's chunk loop never consumes any data — `into_sa` loops
forever, for any number of iterations, instead of returning `[0]`. -/
theorem pack_roundtrip_diverges :
    fromSa [0] = some ⟨MAGIC_CSA4, 1, []⟩ ∧
      ∀ fuel, intoSa fuel ⟨MAGIC_CSA4, 1, []⟩ = .spin := by
  constructor
  · decide
  · intro fuel
    cases fuel with
    | zero => rfl
    | succ fuel =>
      show intoSaLoop 0 fuel _ _ _ = .spin
      simp only [List.drop_nil, List.take_nil, List.length_nil]
      have h := intoSaLoop_zero_bits_spin fuel
        ([] ++ (decompress 0 []).take 1)
      simpa using h

/-- Index of the cell that `enable_buckets` increments for a two-byte
window `(c0, c1)`: `(c0 as usize * 257) + (c1 as usize + 1) + 1`. -/
def pairSlot (c0 c1 : Nat) : Nat := c0 * 257 + (c1 + 1) + 1

/-- Index of the cell incremented for the final one-byte suffix:
`(c0 as usize * 257) + 1`. -/
def lastSlot (c0 : Nat) : Nat := c0 * 257 + 1

/-- Value of cell `q` of the `enable_buckets` table before the prefix-sum
pass: `bkt[0] = 1`, one increment per position `i < n - 1` at
`pairSlot(s[i], s[i+1])`, and one at `lastSlot(s[n-1])` when `n > 0`. -/
def bktCount (s : List Nat) (q : Nat) : Nat :=
  (if q = 0 then 1 else 0) +
    (List.range (s.length - 1)).countP
      (fun i => decide (pairSlot (s.getD i 0) (s.getD (i + 1) 0) = q)) +
    (if 0 < s.length ∧ lastSlot (s.getD (s.length - 1) 0) = q then 1 else 0)

/-- Cell `p` of the table after the inclusive prefix-sum pass
(`sum += *p; *p = sum`). -/
def bktAcc (s : List Nat) : Nat → Nat
  | 0 => bktCount s 0
  | p + 1 => bktAcc s p + bktCount s (p + 1)

/-- Embeds `SuffixArray::get_bucket` (src/sa.rs): the sub-slice of the
suffix array restricted to suffixes sharing the first one or two bytes of
the pattern; the whole array when buckets are disabled. -/
def getBucket (s sa pat : List Nat) (bkt : Bool) : Nat × Nat :=
  if bkt then
    if 1 < pat.length then
      (bktAcc s (pairSlot (pat.getD 0 0) (pat.getD 1 0) - 1),
        bktAcc s (pairSlot (pat.getD 0 0) (pat.getD 1 0)))
    else if pat.length = 1 then
      (bktAcc s (pat.getD 0 0 * 257), bktAcc s (pat.getD 0 0 * 257 + 257))
    else (0, 1)
  else (0, sa.length)

/-- Embeds `SuffixArray::get_top_bucket` (src/sa.rs). -/
def getTopBucket (s sa pat : List Nat) (bkt : Bool) : Nat × Nat :=
  if bkt then
    if 0 < pat.length then
      (bktAcc s (pat.getD 0 0 * 257), bktAcc s (pat.getD 0 0 * 257 + 257))
    else (0, 1)
  else (0, sa.length)

/-- The bucket class of a suffix by its first (up to) two symbols: `0` for
the empty suffix, `lastSlot` for one-symbol suffixes, `pairSlot` else. -/
def kapStr : List Nat → Nat
  | [] => 0
  | [c] => lastSlot c
  | c0 :: c1 :: _ => pairSlot c0 c1

/-- The bucket class of the suffix starting at position `v`. -/
def kap (s : List Nat) (v : Nat) : Nat := kapStr (s.drop v)

theorem kapStr_pos_iff (x : List Nat) : kapStr x = 0 ↔ x = [] := by
  rcases x with _ | ⟨c, _ | ⟨c1, rest⟩⟩ <;>
    simp [kapStr, lastSlot, pairSlot] <;> omega

/-- `bktCount` counts suffix positions by bucket class. -/
theorem bktCount_eq_classCount (s : List Nat) (q : Nat) :
    bktCount s q =
      (List.range (s.length + 1)).countP (fun v => decide (kap s v = q)) := by
  rcases hs : s.length with _ | n
  · -- empty string: only the sentinel cell
    have hnil : s = [] := List.length_eq_zero.mp hs
    subst hnil
    simp only [bktCount, List.length_nil]
    rcases hq : q with _ | q'
    · simp [kap, kapStr]
    · simp [kap, kapStr]
  · -- n + 1 symbols: positions below n - 1, position n - 1, the sentinel
    have hrange : List.range (n + 1 + 1) = (List.range n ++ [n]) ++ [n + 1] := by
      rw [← List.range_succ, ← List.range_succ]
    rw [hrange]
    simp only [List.countP_append]
    have hsent : (List.countP (fun v => decide (kap s v = q)) [n + 1]) =
        if q = 0 then 1 else 0 := by
      have hk : kap s (n + 1) = 0 := by
        unfold kap
        rw [List.drop_eq_nil_of_le (by omega)]
        rfl
      simp only [List.countP_cons, List.countP_nil, hk]
      rcases hq : q with _ | q' <;> simp
    have hlast : (List.countP (fun v => decide (kap s v = q)) [n]) =
        if 0 < s.length ∧ lastSlot (s.getD (s.length - 1) 0) = q
        then 1 else 0 := by
      have hdrop : s.drop n = [s.getD n 0] := by
        have h1 : n < s.length := by omega
        rw [List.drop_eq_getElem_cons h1]
        rw [List.drop_eq_nil_of_le (by omega)]
        rw [List.getD_eq_getElem _ _ h1]
      have hk : kap s n = lastSlot (s.getD n 0) := by
        unfold kap
        rw [hdrop]
        rfl
      have h0 : 0 < s.length := by omega
      have hn : s.length - 1 = n := by omega
      rw [hn]
      by_cases heq : lastSlot (s.getD n 0) = q
      · rw [if_pos ⟨h0, heq⟩]
        have hd : decide (kap s n = q) = true := by
          rw [hk]; exact decide_eq_true heq
        rw [List.countP_cons, List.countP_nil, hd]
        simp
      · rw [if_neg (by tauto)]
        have hd : decide (kap s n = q) = false := by
          rw [hk]; exact decide_eq_false heq
        rw [List.countP_cons, List.countP_nil, hd]
        simp
    have hpairs : (List.range n).countP (fun v => decide (kap s v = q)) =
        (List.range (s.length - 1)).countP
          (fun i => decide (pairSlot (s.getD i 0) (s.getD (i + 1) 0) = q)) := by
      have hn : s.length - 1 = n := by omega
      rw [hn]
      apply List.countP_congr
      intro v hv
      rw [List.mem_range] at hv
      have hdrop : s.drop v = s.getD v 0 :: s.getD (v + 1) 0 :: s.drop (v + 2) := by
        have h1 : v < s.length := by omega
        have h2 : v + 1 < s.length := by omega
        rw [List.drop_eq_getElem_cons h1, List.drop_eq_getElem_cons h2]
        rw [List.getD_eq_getElem _ _ h1, List.getD_eq_getElem _ _ h2]
      have hk : kap s v = pairSlot (s.getD v 0) (s.getD (v + 1) 0) := by
        unfold kap
        rw [hdrop]
        rfl
      simp [hk]
    rw [hsent, hlast, hpairs]
    unfold bktCount
    omega

theorem countP_le_succ (l : List Nat) (f : Nat → Nat) (p : Nat) :
    l.countP (fun v => decide (f v ≤ p)) +
        l.countP (fun v => decide (f v = p + 1)) =
      l.countP (fun v => decide (f v ≤ p + 1)) := by
  induction l with
  | nil => simp
  | cons a l ih =>
    simp only [List.countP_cons]
    by_cases h1 : f a ≤ p
    · have h2 : ¬ f a = p + 1 := by omega
      have h3 : f a ≤ p + 1 := by omega
      rw [decide_eq_true h1, decide_eq_true h3, decide_eq_false h2]
      rw [if_pos rfl, if_neg Bool.false_ne_true]
      omega
    · by_cases h2 : f a = p + 1
      · have h3 : f a ≤ p + 1 := by omega
        rw [decide_eq_true h2, decide_eq_true h3, decide_eq_false h1]
        rw [if_pos rfl, if_neg Bool.false_ne_true]
        omega
      · have h3 : ¬ f a ≤ p + 1 := by omega
        rw [decide_eq_false h1, decide_eq_false h2, decide_eq_false h3]
        rw [if_neg Bool.false_ne_true]
        omega

/-- After the prefix sum, cell `p` holds the number of suffixes whose bucket
class is at most `p`. -/
theorem bktAcc_eq_classCount (s : List Nat) (p : Nat) :
    bktAcc s p =
      (List.range (s.length + 1)).countP (fun v => decide (kap s v ≤ p)) := by
  induction p with
  | zero =>
    rw [show bktAcc s 0 = bktCount s 0 from rfl, bktCount_eq_classCount]
    apply List.countP_congr
    intro v _
    simp [Nat.le_zero]
  | succ p ih =>
    rw [show bktAcc s (p + 1) = bktAcc s p + bktCount s (p + 1) from rfl,
      ih, bktCount_eq_classCount]
    exact countP_le_succ _ _ p

/-- Byte-wise bound on a string. -/
def Bytes (x : List Nat) : Prop := ∀ c ∈ x, c < 256

instance bytesDecidable (l : List Nat) : Decidable (Bytes l) :=
  List.decidableBAll (fun c => c < 256) l

theorem bytes_drop {s : List Nat} (hs : Bytes s) (v : Nat) :
    Bytes (s.drop v) := fun c hc => hs c (List.mem_of_mem_drop hc)

/-- The bucket class is monotone with respect to suffix order (for byte
strings). -/
theorem kapStr_mono {x y : List Nat} (hx : Bytes x) (hy : Bytes y)
    (h : cmpLe x y) : kapStr x ≤ kapStr y := by
  rcases x with _ | ⟨a, _ | ⟨a1, xs⟩⟩
  · simp [kapStr]
  · -- x = [a]
    rcases y with _ | ⟨b, _ | ⟨b1, ys⟩⟩
    · exact (h (by simp [listCmp])).elim
    · -- y = [b]
      have hab : a ≤ b := by
        by_contra hba
        simp only [cmpLe, listCmp] at h
        rw [if_neg (by omega), if_pos (by omega)] at h
        exact h rfl
      simp only [kapStr, lastSlot]
      omega
    · -- y = b :: b1 :: ys
      have hab : a ≤ b := by
        by_contra hba
        simp only [cmpLe, listCmp] at h
        rw [if_neg (by omega), if_pos (by omega)] at h
        exact h rfl
      have hb1 : b1 < 256 := hy b1 (by simp)
      simp only [kapStr, lastSlot, pairSlot]
      omega
  · -- x = a :: a1 :: xs
    rcases y with _ | ⟨b, _ | ⟨b1, ys⟩⟩
    · exact (h (by simp [listCmp])).elim
    · -- y = [b] forces a < b
      have hab : a < b := by
        rcases Nat.lt_trichotomy a b with h1 | h1 | h1
        · exact h1
        · exfalso
          subst h1
          simp only [cmpLe, listCmp, Nat.lt_irrefl, if_false] at h
          exact h rfl
        · exfalso
          simp only [cmpLe, listCmp] at h
          rw [if_neg (by omega), if_pos (by omega)] at h
          exact h rfl
      have ha1 : a1 < 256 := hx a1 (by simp)
      simp only [kapStr, lastSlot, pairSlot]
      omega
    · -- y = b :: b1 :: ys
      have ha1 : a1 < 256 := hx a1 (by simp)
      have hb1 : b1 < 256 := hy b1 (by simp)
      rcases Nat.lt_trichotomy a b with h1 | h1 | h1
      · simp only [kapStr, pairSlot]
        omega
      · subst h1
        have hab1 : a1 ≤ b1 := by
          by_contra hba
          simp only [cmpLe, listCmp, Nat.lt_irrefl, if_false] at h
          rw [if_neg (by omega), if_pos (by omega)] at h
          exact h rfl
        simp only [kapStr, pairSlot]
        omega
      · exfalso
        simp only [cmpLe, listCmp] at h
        rw [if_neg (by omega), if_pos (by omega)] at h
        exact h rfl

/-- Decoding a pair class: `kapStr x = pairSlot p0 p1` iff `x` starts with
exactly the two symbols `p0 p1`. -/
theorem kapStr_eq_pairSlot_iff {x : List Nat} {p0 p1 : Nat} (hx : Bytes x)
    (hp0 : p0 < 256) (hp1 : p1 < 256) :
    kapStr x = pairSlot p0 p1 ↔ x.take 2 = [p0, p1] := by
  rcases x with _ | ⟨a, _ | ⟨a1, xs⟩⟩
  · simp [kapStr, pairSlot]
  · have ha : a < 256 := hx a (by simp)
    simp [kapStr, lastSlot, pairSlot]
    omega
  · have ha : a < 256 := hx a (by simp)
    have ha1 : a1 < 256 := hx a1 (by simp)
    simp only [kapStr, pairSlot, List.take_succ_cons, List.take_zero]
    constructor
    · intro h
      have : a = p0 ∧ a1 = p1 := by omega
      rw [this.1, this.2]
    · intro h
      simp only [List.cons.injEq] at h
      obtain ⟨h1, h2, _⟩ := h
      omega

/-- Decoding a top-level class: `kapStr x ∈ (c*257, c*257 + 257]` iff `x`
starts with the symbol `c`. -/
theorem kapStr_top_iff {x : List Nat} {c : Nat} (hx : Bytes x)
    (hc : c < 256) :
    (c * 257 < kapStr x ∧ kapStr x ≤ c * 257 + 257) ↔ x.take 1 = [c] := by
  rcases x with _ | ⟨a, _ | ⟨a1, xs⟩⟩
  · simp [kapStr]
  · have ha : a < 256 := hx a (by simp)
    simp [kapStr, lastSlot]
    omega
  · have ha : a < 256 := hx a (by simp)
    have ha1 : a1 < 256 := hx a1 (by simp)
    simp [kapStr, pairSlot]
    omega

/-- Below a pair class means lexicographically below any word with those two
leading symbols. -/
theorem lt_of_kapStr_lt_pairSlot {x : List Nat} {p0 p1 : Nat} {pr : List Nat}
    (hx : Bytes x) (hp1 : p1 < 256)
    (h : kapStr x < pairSlot p0 p1) :
    listCmp x (p0 :: p1 :: pr) = .lt := by
  rcases x with _ | ⟨a, _ | ⟨a1, xs⟩⟩
  · simp [listCmp]
  · have ha : a < 256 := hx a (by simp)
    simp only [kapStr, lastSlot, pairSlot] at h
    have hap : a ≤ p0 := by omega
    simp only [listCmp]
    rcases Nat.lt_or_ge a p0 with h1 | h1
    · rw [if_pos h1]
    · have : a = p0 := by omega
      subst this
      rw [if_neg (by omega), if_neg (by omega)]
  · have ha1 : a1 < 256 := hx a1 (by simp)
    simp only [kapStr, pairSlot] at h
    simp only [listCmp]
    rcases Nat.lt_or_ge a p0 with h1 | h1
    · rw [if_pos h1]
    · have hap : a = p0 := by omega
      subst hap
      have h2 : a1 < p1 := by omega
      rw [if_neg (by omega), if_neg (by omega), if_pos h2]

/-- Above a pair class means lexicographically above any word with those two
leading symbols. -/
theorem gt_of_kapStr_gt_pairSlot {x : List Nat} {p0 p1 : Nat} {pr : List Nat}
    (hx : Bytes x) (hp1 : p1 < 256)
    (h : pairSlot p0 p1 < kapStr x) :
    listCmp x (p0 :: p1 :: pr) = .gt := by
  rcases x with _ | ⟨a, _ | ⟨a1, xs⟩⟩
  · simp [kapStr, pairSlot] at h
  · have ha : a < 256 := hx a (by simp)
    simp only [kapStr, lastSlot, pairSlot] at h
    have hap : p0 < a := by omega
    simp only [listCmp]
    rw [if_neg (by omega), if_pos hap]
  · have ha1 : a1 < 256 := hx a1 (by simp)
    simp only [kapStr, pairSlot] at h
    simp only [listCmp]
    rcases Nat.lt_or_ge p0 a with h1 | h1
    · rw [if_neg (by omega), if_pos h1]
    · have hap : a = p0 := by omega
      subst hap
      have h2 : p1 < a1 := by omega
      rw [if_neg (by omega), if_neg (by omega), if_neg (by omega),
        if_pos h2]

/-- Below a top-level class means lexicographically below `[c]`. -/
theorem lt_of_kapStr_le_top {x : List Nat} {c : Nat} {pr : List Nat}
    (hx : Bytes x) (h : kapStr x ≤ c * 257) :
    listCmp x (c :: pr) = .lt := by
  rcases x with _ | ⟨a, _ | ⟨a1, xs⟩⟩
  · simp [listCmp]
  · simp only [kapStr, lastSlot] at h
    have hac : a < c := by omega
    simp [listCmp, hac]
  · have ha1 : a1 < 256 := hx a1 (by simp)
    simp only [kapStr, pairSlot] at h
    have hac : a < c := by omega
    simp [listCmp, hac]

/-- Above a top-level class means lexicographically above `[c]`. -/
theorem gt_of_kapStr_gt_top {x : List Nat} {c : Nat}
    (hx : Bytes x) (h : c * 257 + 257 < kapStr x) :
    listCmp x [c] = .gt := by
  rcases x with _ | ⟨a, _ | ⟨a1, xs⟩⟩
  · simp [kapStr] at h
  · simp only [kapStr, lastSlot] at h
    have hac : c < a := by omega
    simp only [listCmp]
    rw [if_neg (by omega), if_pos hac]
  · have ha1 : a1 < 256 := hx a1 (by simp)
    simp only [kapStr, pairSlot] at h
    have hac : c < a := by omega
    simp only [listCmp]
    rw [if_neg (by omega), if_pos hac]

/-- For an antitone Boolean sequence, the true positions are exactly the
initial segment whose length is the count of trues. -/
theorem antitone_count_iff : ∀ (L : Nat) (P : Nat → Bool),
    (∀ a b, a ≤ b → b < L → P b = true → P a = true) →
    ∀ m, m < L → (P m = true ↔ m < (List.range L).countP P) := by
  intro L
  induction L with
  | zero => intro P _ m hm; omega
  | succ L ih =>
    intro P hmono m hm
    rw [List.range_succ, List.countP_append]
    rcases hPL : P L with _ | _
    · -- P L = false: the last element contributes nothing
      have hc : List.countP P [L] = 0 := by
        simp [List.countP_cons, hPL]
      rw [hc]
      rcases Nat.lt_or_ge m L with hmL | hmL
      · rw [Nat.add_zero]
        exact ih P (fun a b hab hb => hmono a b hab (by omega)) m hmL
      · have hmeq : m = L := by omega
        subst hmeq
        rw [hPL]
        have : (List.range m).countP P ≤ m := by
          calc (List.range m).countP P ≤ (List.range m).length :=
            List.countP_le_length _
          _ = m := List.length_range m
        simp
        omega
    · -- P L = true: everything is true
      have hall : ∀ x ∈ List.range (L + 1), P x = true := by
        intro x hx
        rw [List.mem_range] at hx
        exact hmono x L (by omega) (by omega) hPL
      have h1 : (List.range L).countP P = L := by
        have := List.countP_eq_length (p := P) (l := List.range L)
        rw [this.mpr (fun x hx => hall x (by
          rw [List.mem_range] at hx ⊢; omega))]
        exact List.length_range L
      have h2 : List.countP P [L] = 1 := by
        simp [List.countP_cons, hPL]
      rw [h1, h2]
      constructor
      · intro _; omega
      · intro _
        exact hall m (List.mem_range.mpr hm)

/-- Reading a list as its table of `getD` values. -/
theorem map_getD_range : ∀ l : List Nat,
    (List.range l.length).map (fun m => l.getD m 0) = l := by
  intro l
  induction l with
  | nil => simp
  | cons a l ih =>
    rw [List.length_cons, List.range_succ_eq_map]
    rw [List.map_cons]
    simp only [List.getD_cons_zero, List.map_map]
    congr 1

/-- Counting suffix positions below a class threshold over the suffix array
equals counting them over all of `{0, …, n}`. -/
theorem count_positions {s sa : List Nat} (h : sortedSA s sa = true)
    (Q : Nat → Bool) :
    (List.range sa.length).countP (fun m => Q (sa.getD m 0)) =
      (List.range (s.length + 1)).countP Q := by
  have h1 : (List.range sa.length).countP (fun m => Q (sa.getD m 0)) =
      ((List.range sa.length).map (fun m => sa.getD m 0)).countP Q := by
    rw [List.countP_map]
    rfl
  rw [h1, map_getD_range sa]
  exact (sortedSA_perm h).countP_eq Q

/-- Position/class correspondence: position `m` of a valid suffix array lies
below `bktAcc s p` iff its suffix's bucket class is at most `p`. -/
theorem positionsBelow {s sa : List Nat} (h : sortedSA s sa = true)
    (hs : Bytes s) (p : Nat) :
    ∀ m, m < sa.length → (kap s (sa.getD m 0) ≤ p ↔ m < bktAcc s p) := by
  intro m hm
  have hanti : ∀ a b, a ≤ b → b < sa.length →
      decide (kap s (sa.getD b 0) ≤ p) = true →
      decide (kap s (sa.getD a 0) ≤ p) = true := by
    intro a b hab hb hQb
    rw [decide_eq_true_eq] at hQb
    rw [decide_eq_true_eq]
    have hmono := kapStr_mono (bytes_drop hs (sa.getD a 0))
      (bytes_drop hs (sa.getD b 0)) (sortedSA_le_of_le h hab hb)
    unfold kap at *
    omega
  have := antitone_count_iff sa.length
    (fun m => decide (kap s (sa.getD m 0) ≤ p)) hanti m hm
  rw [decide_eq_true_eq] at this
  rw [this]
  have hcnt : (List.range sa.length).countP
      (fun m => decide (kap s (sa.getD m 0) ≤ p)) = bktAcc s p := by
    rw [count_positions h (fun v => decide (kap s v ≤ p))]
    exact (bktAcc_eq_classCount s p).symm
  rw [hcnt]

theorem bktAcc_le_saLength {s sa : List Nat} (h : sortedSA s sa = true)
    (p : Nat) : bktAcc s p ≤ sa.length := by
  rw [bktAcc_eq_classCount, sortedSA_length h]
  calc (List.range (s.length + 1)).countP _ ≤
      (List.range (s.length + 1)).length := List.countP_le_length _
  _ = s.length + 1 := List.length_range _

theorem bktAcc_mono {s : List Nat} {p q : Nat} (h : p ≤ q) :
    bktAcc s p ≤ bktAcc s q := by
  induction q with
  | zero =>
    have : p = 0 := by omega
    subst this
    exact Nat.le_refl _
  | succ q ih =>
    rcases Nat.lt_or_ge p (q + 1) with h1 | h1
    · calc bktAcc s p ≤ bktAcc s q := ih (by omega)
      _ ≤ bktAcc s q + bktCount s (q + 1) := Nat.le_add_right _ _
      _ = bktAcc s (q + 1) := rfl
    · have : p = q + 1 := by omega
      subst this
      exact Nat.le_refl _

/-- The sub-slice `&sa[lo..hi]` selected by a bucket range. -/
def bucketSlice (sa : List Nat) (r : Nat × Nat) : List Nat :=
  (sa.drop r.1).take (r.2 - r.1)

/-- Body of `SuffixArray::contains` (src/sa.rs) over an already selected
sub-slice. -/
def containsSlice (s sl pat : List Nat) : Bool :=
  match binSearch
      (fun m => listCmp (trunc (s.drop (sl.getD m 0)) pat.length) pat)
      0 sl.length with
  | .found _ => true
  | .notFound _ => false

/-- Embeds `SuffixArray::contains` (src/sa.rs) with the bucket table
enabled (`bkt = true`) or absent (`bkt = false`). -/
def containsB (s sa pat : List Nat) (bkt : Bool) : Bool :=
  containsSlice s (bucketSlice sa (getBucket s sa pat bkt)) pat

/-- Embeds `SuffixArray::search_all` (src/sa.rs): the two binary-search
loops of `searchAll` run over the bucket sub-slice (the whole array for the
empty pattern). -/
def searchAllB (s sa pat : List Nat) (bkt : Bool) : List Nat :=
  searchAll s
    (if 0 < pat.length then bucketSlice sa (getBucket s sa pat bkt) else sa)
    pat

/-- Embeds `SuffixArray::search_lcp` (src/sa.rs), including the
empty-bucket fallback through `get_top_bucket`. -/
def searchLcpB (s sa pat : List Nat) (bkt : Bool) : Nat × Nat :=
  if (bucketSlice sa (getBucket s sa pat bkt)).length = 0 then
    if 0 < (bucketSlice sa (getTopBucket s sa pat bkt)).length then
      ((bucketSlice sa (getTopBucket s sa pat bkt)).getD 0 0,
        (bucketSlice sa (getTopBucket s sa pat bkt)).getD 0 0 + 1)
    else (s.length, s.length)
  else
    match binSearch
        (fun m => listCmp
          (s.drop ((bucketSlice sa (getBucket s sa pat bkt)).getD m 0)) pat)
        0 (bucketSlice sa (getBucket s sa pat bkt)).length with
    | .found i => ((bucketSlice sa (getBucket s sa pat bkt)).getD i 0, s.length)
    | .notFound i =>
      if 0 < i ∧ i < (bucketSlice sa (getBucket s sa pat bkt)).length then
        if lcp pat (s.drop ((bucketSlice sa (getBucket s sa pat bkt)).getD i 0)) <
            lcp pat (s.drop ((bucketSlice sa (getBucket s sa pat bkt)).getD (i - 1) 0)) then
          ((bucketSlice sa (getBucket s sa pat bkt)).getD (i - 1) 0,
            (bucketSlice sa (getBucket s sa pat bkt)).getD (i - 1) 0 +
              lcp pat (s.drop ((bucketSlice sa (getBucket s sa pat bkt)).getD (i - 1) 0)))
        else
          ((bucketSlice sa (getBucket s sa pat bkt)).getD i 0,
            (bucketSlice sa (getBucket s sa pat bkt)).getD i 0 +
              lcp pat (s.drop ((bucketSlice sa (getBucket s sa pat bkt)).getD i 0)))
      else if i = 0 then
        ((bucketSlice sa (getBucket s sa pat bkt)).getD i 0,
          (bucketSlice sa (getBucket s sa pat bkt)).getD i 0 +
            lcp pat (s.drop ((bucketSlice sa (getBucket s sa pat bkt)).getD i 0)))
      else
        ((bucketSlice sa (getBucket s sa pat bkt)).getD (i - 1) 0,
          (bucketSlice sa (getBucket s sa pat bkt)).getD (i - 1) 0 +
            lcp pat (s.drop ((bucketSlice sa (getBucket s sa pat bkt)).getD (i - 1) 0)))

theorem bucketSlice_length {sa : List Nat} {lo hi : Nat} (hhi : hi ≤ sa.length) :
    (bucketSlice sa (lo, hi)).length = hi - lo := by
  unfold bucketSlice
  rw [List.length_take, List.length_drop]
  omega

theorem bucketSlice_getD {sa : List Nat} {lo hi m : Nat} (hm : m < hi - lo)
    (hhi : hi ≤ sa.length) :
    (bucketSlice sa (lo, hi)).getD m 0 = sa.getD (lo + m) 0 := by
  have hlen : (bucketSlice sa (lo, hi)).length = hi - lo :=
    bucketSlice_length hhi
  rw [List.getD_eq_getElem _ _ (by omega)]
  rw [List.getD_eq_getElem _ _ (by omega : lo + m < sa.length)]
  unfold bucketSlice
  simp only [List.getElem_take, List.getElem_drop]

theorem bucketSlice_keysMono {s sa : List Nat} (h : sortedSA s sa = true)
    {lo hi : Nat} (hhi : hi ≤ sa.length) :
    KeysMono s (bucketSlice sa (lo, hi)) := by
  intro a b hab hb
  rw [bucketSlice_length hhi] at hb
  rw [bucketSlice_getD (by omega) hhi, bucketSlice_getD (by omega) hhi]
  exact sortedSA_le_of_le h (by omega) (by omega)

/-- `contains` over a sub-slice finds the pattern iff it occurs at a suffix
indexed inside the slice. -/
theorem containsSlice_iff {s sa pat : List Nat} (h : sortedSA s sa = true)
    {lo hi : Nat} (hlo : lo ≤ hi) (hhi : hi ≤ sa.length) :
    containsSlice s (bucketSlice sa (lo, hi)) pat = true ↔
      ∃ m, lo ≤ m ∧ m < hi ∧ (suffixAt s sa m).take pat.length = pat := by
  have hlen : (bucketSlice sa (lo, hi)).length = hi - lo :=
    bucketSlice_length hhi
  have hmono : MonoCmp
      (fun m => listCmp
        (trunc (s.drop ((bucketSlice sa (lo, hi)).getD m 0)) pat.length) pat)
      0 (bucketSlice sa (lo, hi)).length := by
    apply monoCmp_of_keys
    intro a b hab hb
    exact cmpLe_take (bucketSlice_keysMono h hhi a b hab hb) pat.length
  constructor
  · intro hc
    unfold containsSlice at hc
    rcases hres : binSearch
        (fun m => listCmp
          (trunc (s.drop ((bucketSlice sa (lo, hi)).getD m 0)) pat.length) pat)
        0 (bucketSlice sa (lo, hi)).length with i | i
    · obtain ⟨_, hir, heq⟩ := binSearch_found_spec (Nat.zero_le _) hres
      rw [hlen] at hir
      refine ⟨lo + i, by omega, by omega, ?_⟩
      have := (listCmp_eq_iff _ _).mp heq
      rw [bucketSlice_getD (by omega) hhi] at this
      exact this
    · rw [hres] at hc; cases hc
  · rintro ⟨m, hm1, hm2, hsw⟩
    have heq : listCmp
        (trunc (s.drop ((bucketSlice sa (lo, hi)).getD (m - lo) 0))
          pat.length) pat = .eq := by
      rw [bucketSlice_getD (by omega) hhi]
      rw [show lo + (m - lo) = m by omega]
      exact (listCmp_eq_iff _ _).mpr hsw
    obtain ⟨j, hj⟩ := binSearch_found_of_eq hmono (Nat.zero_le _)
      (by rw [hlen]; omega) heq
    unfold containsSlice
    rw [hj]

/-- Two sub-intervals of `[0, L)` characterizing the same predicate have
equal lengths, and agree entirely when non-empty. -/
theorem interval_unique {L a1 b1 a2 b2 : Nat} {P : Nat → Prop}
    (ha1 : a1 ≤ b1) (hb1 : b1 ≤ L) (ha2 : a2 ≤ b2) (hb2 : b2 ≤ L)
    (h1 : ∀ m, m < L → ((a1 ≤ m ∧ m < b1) ↔ P m))
    (h2 : ∀ m, m < L → ((a2 ≤ m ∧ m < b2) ↔ P m)) :
    b1 - a1 = b2 - a2 ∧ (a1 < b1 → a1 = a2 ∧ b1 = b2) := by
  have key : a1 < b1 → a1 = a2 ∧ b1 = b2 := by
    intro hne
    have hPa1 : P a1 := (h1 a1 (by omega)).mp ⟨Nat.le_refl _, hne⟩
    have h2a1 := (h2 a1 (by omega)).mpr hPa1
    have haa : a1 = a2 := by
      by_contra hna
      have ha21 : a2 < a1 := by omega
      have hPa2 : P a2 := (h2 a2 (by omega)).mp ⟨Nat.le_refl _, by omega⟩
      have := (h1 a2 (by omega)).mpr hPa2
      omega
    have hPb1 : P (b1 - 1) := (h1 (b1 - 1) (by omega)).mp
      ⟨by omega, by omega⟩
    have h2b1 := (h2 (b1 - 1) (by omega)).mpr hPb1
    have hbb : b1 = b2 := by
      by_contra hnb
      have hb12 : b1 < b2 := by omega
      have hPb : P b1 := (h2 b1 (by omega)).mp ⟨by omega, hb12⟩
      have := (h1 b1 (by omega)).mpr hPb
      omega
    exact ⟨haa, hbb⟩
  constructor
  · rcases Nat.lt_or_ge a1 b1 with hne | hemp
    · obtain ⟨haa, hbb⟩ := key hne
      omega
    · -- left interval empty: the right one must be empty too
      have : ¬ a2 < b2 := by
        intro hne2
        have hPa2 : P a2 := (h2 a2 (by omega)).mp ⟨Nat.le_refl _, hne2⟩
        have := (h1 a2 (by omega)).mpr hPa2
        omega
      omega
  · exact key

/-- `search_all` over any sub-slice that contains every occurrence returns
a canonical contiguous run of the full array. -/
theorem searchAll_slice_canonical {s sa pat : List Nat}
    (h : sortedSA s sa = true) {lo hi : Nat} (hlo : lo ≤ hi)
    (hhi : hi ≤ sa.length)
    (hcomp : ∀ m, m < sa.length →
      (suffixAt s sa m).take pat.length = pat → (lo ≤ m ∧ m < hi)) :
    ∃ a b, a ≤ b ∧ b ≤ sa.length ∧
      searchAll s (bucketSlice sa (lo, hi)) pat =
        (sa.drop a).take (b - a) ∧
      (∀ m, m < sa.length →
        ((a ≤ m ∧ m < b) ↔ (suffixAt s sa m).take pat.length = pat)) := by
  have hslen : (bucketSlice sa (lo, hi)).length = hi - lo :=
    bucketSlice_length hhi
  have hmono := @bucketSlice_keysMono s sa h lo hi hhi
  obtain ⟨hlo1, hlo2⟩ := @lowPP_spec s (bucketSlice sa (lo, hi)) pat hmono
  have hge : ∀ m, lowPP s (bucketSlice sa (lo, hi)) pat ≤ m →
      m < (bucketSlice sa (lo, hi)).length →
      cmpLe pat (s.drop ((bucketSlice sa (lo, hi)).getD m 0)) := by
    intro m hm1 hm2
    intro hgt
    have hlt := (listCmp_lt_iff_gt _ _).mpr hgt
    have := (hlo2 m hm2).mpr hlt
    omega
  obtain ⟨hhi1, hhi2, hhi3⟩ := highPP_spec hmono hlo1 hge
  set i := lowPP s (bucketSlice sa (lo, hi)) pat with hidef
  set j := highPP s (bucketSlice sa (lo, hi)) pat i with hjdef
  refine ⟨lo + i, lo + j, by omega, by omega, ?_, ?_⟩
  · -- the returned sub-slice of the sub-slice is a sub-slice of `sa`
    unfold searchAll
    rw [← hidef, ← hjdef]
    unfold bucketSlice
    simp only
    rw [List.drop_take, List.drop_drop]
    rw [List.take_take]
    congr 1
    omega
  · intro m hm
    constructor
    · rintro ⟨hm1, hm2⟩
      have hmi : i ≤ m - lo := by omega
      have hmlt : m - lo < (bucketSlice sa (lo, hi)).length := by
        rw [hslen]; omega
      have hsw := (hhi3 (m - lo) hmi hmlt).mp (by omega)
      rw [bucketSlice_getD (by omega) hhi] at hsw
      rw [show lo + (m - lo) = m by omega] at hsw
      exact hsw
    · intro hsw
      obtain ⟨hmlo, hmhi⟩ := hcomp m hm hsw
      have hmlt : m - lo < (bucketSlice sa (lo, hi)).length := by
        rw [hslen]; omega
      have hswm : (s.drop ((bucketSlice sa (lo, hi)).getD (m - lo) 0)).take
          pat.length = pat := by
        rw [bucketSlice_getD (by omega) hhi,
          show lo + (m - lo) = m by omega]
        exact hsw
      have hmi : i ≤ m - lo := by
        by_contra hlt
        have hltm := (hlo2 (m - lo) hmlt).mp (by omega)
        have hle : cmpLe pat (s.drop ((bucketSlice sa (lo, hi)).getD (m - lo) 0)) :=
          cmpLe_of_take_eq pat _ hswm
        exact absurd ((listCmp_lt_iff_gt _ _).mp hltm) hle
      have hmj : m - lo < j := (hhi3 (m - lo) hmi hmlt).mpr hswm
      omega

theorem bool_eq_of_iff {a b : Bool} (h : a = true ↔ b = true) : a = b := by
  cases a <;> cases b <;> simp_all

/-- A complete bucket (one containing every occurrence of the pattern)
gives the same `contains` answer as the whole array. -/
theorem containsSlice_eq_of_complete {s sa pat : List Nat}
    (h : sortedSA s sa = true) {lo hi : Nat} (hlo : lo ≤ hi)
    (hhi : hi ≤ sa.length)
    (hcomp : ∀ m, m < sa.length →
      (suffixAt s sa m).take pat.length = pat → (lo ≤ m ∧ m < hi)) :
    containsSlice s (bucketSlice sa (lo, hi)) pat =
      containsSlice s (bucketSlice sa (0, sa.length)) pat := by
  apply bool_eq_of_iff
  rw [containsSlice_iff h hlo hhi,
    containsSlice_iff h (Nat.zero_le _) (Nat.le_refl _)]
  constructor
  · rintro ⟨m, h1, h2, h3⟩
    exact ⟨m, Nat.zero_le _, by omega, h3⟩
  · rintro ⟨m, _, h2, h3⟩
    obtain ⟨l1, l2⟩ := hcomp m h2 h3
    exact ⟨m, l1, l2, h3⟩

/-- A complete bucket gives the same `search_all` slice as the whole
array. -/
theorem searchAllSlice_eq_of_complete {s sa pat : List Nat}
    (h : sortedSA s sa = true) {lo hi : Nat} (hlo : lo ≤ hi)
    (hhi : hi ≤ sa.length)
    (hcomp : ∀ m, m < sa.length →
      (suffixAt s sa m).take pat.length = pat → (lo ≤ m ∧ m < hi)) :
    searchAll s (bucketSlice sa (lo, hi)) pat =
      searchAll s (bucketSlice sa (0, sa.length)) pat := by
  obtain ⟨a1, b1, hab1, hb1, res1, char1⟩ :=
    searchAll_slice_canonical h hlo hhi hcomp
  obtain ⟨a2, b2, hab2, hb2, res2, char2⟩ :=
    searchAll_slice_canonical h (Nat.zero_le sa.length) (Nat.le_refl _)
      (fun m hm _ => ⟨Nat.zero_le _, hm⟩)
  obtain ⟨hlen, hne⟩ := interval_unique hab1 hb1 hab2 hb2 char1 char2
  rw [res1, res2]
  rcases Nat.lt_or_ge a1 b1 with hlt | hge
  · obtain ⟨haa, hbb⟩ := hne hlt
    rw [haa, hbb]
  · have h1 : b1 - a1 = 0 := by omega
    have h2 : b2 - a2 = 0 := by omega
    rw [h1, h2, List.take_zero, List.take_zero]

/-- Every occurrence of a one-symbol pattern lies in its top-level
bucket. -/
theorem top_bucket_complete {s sa : List Nat} {p0 : Nat}
    (h : sortedSA s sa = true) (hs : Bytes s) (hp0 : p0 < 256) :
    ∀ m, m < sa.length →
      (suffixAt s sa m).take ([p0] : List Nat).length = [p0] →
      (bktAcc s (p0 * 257) ≤ m ∧ m < bktAcc s (p0 * 257 + 257)) := by
  intro m hm hsw
  have hbytes : Bytes (suffixAt s sa m) := bytes_drop hs _
  have hkap := (kapStr_top_iff hbytes hp0).mpr (by simpa using hsw)
  unfold suffixAt at hkap
  have h1 := positionsBelow h hs (p0 * 257 + 257) m hm
  have h2 := positionsBelow h hs (p0 * 257) m hm
  unfold kap at h1 h2
  constructor
  · by_contra hcon
    have : kapStr (suffixAt s sa m) ≤ p0 * 257 := by
      have := h2.mpr (by omega)
      exact this
    omega
  · exact h1.mp (by omega)

/-- Every occurrence of a pattern of length at least two lies in its
two-symbol sub-bucket. -/
theorem pair_bucket_complete {s sa : List Nat} {p0 p1 : Nat} {pr : List Nat}
    (h : sortedSA s sa = true) (hs : Bytes s) (hp0 : p0 < 256)
    (hp1 : p1 < 256) :
    ∀ m, m < sa.length →
      (suffixAt s sa m).take (p0 :: p1 :: pr).length = p0 :: p1 :: pr →
      (bktAcc s (pairSlot p0 p1 - 1) ≤ m ∧ m < bktAcc s (pairSlot p0 p1)) := by
  intro m hm hsw
  have htake2 : (suffixAt s sa m).take 2 = [p0, p1] := by
    have heq : (suffixAt s sa m).take 2 =
        ((suffixAt s sa m).take (p0 :: p1 :: pr).length).take 2 := by
      rw [List.take_take]
      congr 1
      simp only [List.length_cons]
      omega
    rw [heq, hsw]
    rfl
  have hbytes : Bytes (suffixAt s sa m) := bytes_drop hs _
  have hkap := (kapStr_eq_pairSlot_iff hbytes hp0 hp1).mpr htake2
  unfold suffixAt at hkap
  have h1 := positionsBelow h hs (pairSlot p0 p1) m hm
  have h2 := positionsBelow h hs (pairSlot p0 p1 - 1) m hm
  unfold kap at h1 h2
  have hq1 : 2 ≤ pairSlot p0 p1 := by unfold pairSlot; omega
  constructor
  · by_contra hcon
    have := h2.mpr (by omega)
    omega
  · exact h1.mp (by omega)

/-- Claim C9 (amended): with a valid suffix array over byte values,
`contains` and `search_all` return identical answers with and without the
two-byte bucket acceleration table.  (`search_lcp` may return a different —
though still LCP-maximal — range; see the counterexample.) -/
theorem buckets_preserve_search (s sa pat : List Nat)
    (hs : Bytes s) (hp : Bytes pat) (h : sortedSA s sa = true) :
    containsB s sa pat true = containsB s sa pat false ∧
      searchAllB s sa pat true = searchAllB s sa pat false := by
  have hlen := sortedSA_length h
  rcases pat with _ | ⟨p0, _ | ⟨p1, pr⟩⟩
  · constructor
    · have e1 : containsB s sa [] true =
          containsSlice s (bucketSlice sa (0, 1)) [] := rfl
      have e2 : containsB s sa [] false =
          containsSlice s (bucketSlice sa (0, sa.length)) [] := rfl
      rw [e1, e2]
      have t1 : containsSlice s (bucketSlice sa (0, 1)) [] = true :=
        (containsSlice_iff h (by omega) (by omega)).mpr
          ⟨0, Nat.le_refl 0, by omega, by simp⟩
      have t2 : containsSlice s (bucketSlice sa (0, sa.length)) [] = true :=
        (containsSlice_iff h (Nat.zero_le _) (Nat.le_refl _)).mpr
          ⟨0, Nat.le_refl 0, by omega, by simp⟩
      rw [t1, t2]
    · rfl
  · -- one-symbol pattern: restrict to the top-level bucket
    have hp0 : p0 < 256 := hp p0 (by simp)
    have hcomp := @top_bucket_complete s sa p0 h hs hp0
    have hlohi : bktAcc s (p0 * 257) ≤ bktAcc s (p0 * 257 + 257) :=
      bktAcc_mono (by omega)
    have hhile := bktAcc_le_saLength h (p0 * 257 + 257)
    constructor
    · have e1 : containsB s sa [p0] true =
          containsSlice s
            (bucketSlice sa (bktAcc s (p0 * 257), bktAcc s (p0 * 257 + 257)))
            [p0] := rfl
      have e2 : containsB s sa [p0] false =
          containsSlice s (bucketSlice sa (0, sa.length)) [p0] := rfl
      rw [e1, e2]
      exact containsSlice_eq_of_complete h hlohi hhile hcomp
    · have e1 : searchAllB s sa [p0] true =
          searchAll s
            (bucketSlice sa (bktAcc s (p0 * 257), bktAcc s (p0 * 257 + 257)))
            [p0] := rfl
      have e2 : searchAllB s sa [p0] false =
          searchAll s (bucketSlice sa (0, sa.length)) [p0] := rfl
      rw [e1, e2]
      exact searchAllSlice_eq_of_complete h hlohi hhile hcomp
  · -- at least two symbols: restrict to the two-byte sub-bucket
    have hp0 : p0 < 256 := hp p0 (by simp)
    have hp1 : p1 < 256 := hp p1 (by simp)
    have hcomp := @pair_bucket_complete s sa p0 p1 pr h hs hp0 hp1
    have hlohi : bktAcc s (pairSlot p0 p1 - 1) ≤ bktAcc s (pairSlot p0 p1) :=
      bktAcc_mono (by omega)
    have hhile := bktAcc_le_saLength h (pairSlot p0 p1)
    have egb : getBucket s sa (p0 :: p1 :: pr) true =
        (bktAcc s (pairSlot p0 p1 - 1), bktAcc s (pairSlot p0 p1)) := by
      unfold getBucket
      rw [if_pos rfl,
        if_pos (show 1 < (p0 :: p1 :: pr).length by
          simp only [List.length_cons]; omega)]
      rfl
    constructor
    · have e1 : containsB s sa (p0 :: p1 :: pr) true =
          containsSlice s
            (bucketSlice sa
              (bktAcc s (pairSlot p0 p1 - 1), bktAcc s (pairSlot p0 p1)))
            (p0 :: p1 :: pr) := by
        unfold containsB
        rw [egb]
      have e2 : containsB s sa (p0 :: p1 :: pr) false =
          containsSlice s (bucketSlice sa (0, sa.length)) (p0 :: p1 :: pr) :=
        rfl
      rw [e1, e2]
      exact containsSlice_eq_of_complete h hlohi hhile hcomp
    · have e1 : searchAllB s sa (p0 :: p1 :: pr) true =
          searchAll s
            (bucketSlice sa
              (bktAcc s (pairSlot p0 p1 - 1), bktAcc s (pairSlot p0 p1)))
            (p0 :: p1 :: pr) := by
        unfold searchAllB
        rw [if_pos (show 0 < (p0 :: p1 :: pr).length by
          simp only [List.length_cons]; omega), egb]
      have e2 : searchAllB s sa (p0 :: p1 :: pr) false =
          searchAll s (bucketSlice sa (0, sa.length)) (p0 :: p1 :: pr) := by
        unfold searchAllB
        rw [if_pos (show 0 < (p0 :: p1 :: pr).length by
          simp only [List.length_cons]; omega)]
        rfl
      rw [e1, e2]
      exact searchAllSlice_eq_of_complete h hlohi hhile hcomp

/-- Counterexample to C9 as stated: for `S = [0, 2, 0]` (suffix array
`[3, 2, 0, 1]`) and `P = [0, 1]`, `search_lcp` answers `2..3` with the
bucket table but `0..1` without it — the sub-bucket of `P` is empty and the
two code paths pick different (both LCP-maximal) witnesses. -/
theorem search_lcp_differs_with_buckets :
    sortedSA [0, 2, 0] [3, 2, 0, 1] = true ∧
      searchLcpB [0, 2, 0] [3, 2, 0, 1] [0, 1] true = (2, 3) ∧
      searchLcpB [0, 2, 0] [3, 2, 0, 1] [0, 1] false = (0, 1) := by
  decide

/-- Witness for the amended C9 at `S = [0,2,0]`, `SA = [3,2,0,1]`,
`P = [0,1]`. -/
theorem buckets_preserve_search_witness :
    Bytes [0, 2, 0] ∧ Bytes [0, 1] ∧
      sortedSA [0, 2, 0] [3, 2, 0, 1] = true ∧
      (containsB [0, 2, 0] [3, 2, 0, 1] [0, 1] true =
          containsB [0, 2, 0] [3, 2, 0, 1] [0, 1] false ∧
        searchAllB [0, 2, 0] [3, 2, 0, 1] [0, 1] true =
          searchAllB [0, 2, 0] [3, 2, 0, 1] [0, 1] false) :=
  ⟨by decide, by decide, by decide,
    buckets_preserve_search [0, 2, 0] [3, 2, 0, 1] [0, 1]
      (by decide) (by decide) (by decide)⟩

end SufArr
